import Mathlib

/-!
Verification of the QDP++ scalar lattice layout engine and the in-memory
map object.

The development shallowly embeds the code of the scalar layout file
(namespace `QDP::Layout`): the four site-indexing variants (lexicographic,
2-checkerboard, 3D time-fastest checkerboard, 32-style checkerboard), the
`Layout::create` initialization routine with its exhaustive round-trip
self-check, and the I/O-grid interface; and, from the map-object header,
the `MapObjectMemory` key-value wrapper.

C++ `multi1d<int>` vectors are embedded as `List Nat` (all quantities
involved are non-negative: coordinates, lattice extents, linear indices).
The machine operations `>>`, `<<`, `&`, `^` on non-negative `int` agree
with the corresponding `Nat` operations used below.
-/

namespace QDPXX

/-- Modelled from the spec: `crtesn` (declared in `qdp_util.h`, body not in
the sources at hand).  The spec describes the lexicographic codec as "the
mixed-radix positional encoding of `coord` against `dims`, varying the
first dimension fastest"; `crtesn` is its inverse, decomposing a
lexicographic index into coordinates: repeatedly `coord[i] = ipos % latt_size[i];
ipos = ipos / latt_size[i]` for `i = 0, 1, ...`. -/
def crtesn (ipos : Nat) (latt_size : List Nat) : List Nat :=
  match latt_size with
  | [] => []
  | d :: ds => (ipos % d) :: crtesn (ipos / d) ds

/-- Modelled from the spec: `local_site` (declared in `qdp_util.h`, body not
in the sources at hand).  The mixed-radix positional encoding of `coord`
against `latt_size` with dimension 0 varying fastest:
`c0 + L0 * (c1 + L1 * (c2 + ...))`. -/
def local_site (coord latt_size : List Nat) : Nat :=
  match coord, latt_size with
  | [], _ => 0
  | _ :: _, [] => 0
  | c :: cs, d :: ds => c + d * local_site cs ds

/-- Modelled from the spec: the CB3D build of `crtesn` ("This now uses
crtesn with the t running fastest").  The last ("time") dimension is the
fastest-varying one, followed by dimensions 0, 1, ... in the usual order. -/
def crtesn_cb3d (ipos : Nat) (latt_size : List Nat) : List Nat :=
  if latt_size = [] then []
  else
    crtesn (ipos / latt_size.getLastD 1) latt_size.dropLast
      ++ [ipos % latt_size.getLastD 1]

/-- Modelled from the spec: the CB3D build of `local_site` ("Use funky
local site").  Time is local and fastest running: the index is the
lexicographic index of the leading `Nd-1` components scaled by the time
extent, plus the time component. -/
def local_site_cb3d (coord latt_size : List Nat) : Nat :=
  coord.getLastD 0 + latt_size.getLastD 1 * local_site coord.dropLast latt_size.dropLast

/-- A coordinate is valid for a lattice size when it has the same number of
components and each component is below the corresponding extent. -/
def ValidCoord (coord dims : List Nat) : Prop :=
  List.Forall₂ (· < ·) coord dims

theorem validCoord_nil : ValidCoord [] [] := List.Forall₂.nil

theorem validCoord_cons {c d : Nat} {cs ds : List Nat} (h1 : c < d)
    (h2 : ValidCoord cs ds) : ValidCoord (c :: cs) (d :: ds) :=
  List.Forall₂.cons h1 h2

theorem ValidCoord.length_eq {c ds : List Nat} (h : ValidCoord c ds) :
    c.length = ds.length :=
  List.Forall₂.length_eq h

theorem local_site_lt_prod {c ds : List Nat} (h : ValidCoord c ds) :
    local_site c ds < ds.prod := by
  induction h with
  | nil => simp [local_site]
  | @cons a b cs' ds' hab _ ih =>
    simp only [local_site, List.prod_cons]
    have h1 : b * (local_site cs' ds' + 1) ≤ b * ds'.prod :=
      Nat.mul_le_mul_left b ih
    have h2 : b * (local_site cs' ds' + 1) = b * local_site cs' ds' + b := by ring
    omega

theorem crtesn_local_site {c ds : List Nat} (h : ValidCoord c ds) :
    crtesn (local_site c ds) ds = c := by
  induction h with
  | nil => simp [crtesn, local_site]
  | @cons a b cs' ds' hab _ ih =>
    have hb : 0 < b := by omega
    simp only [crtesn, local_site]
    have h1 : (a + b * local_site cs' ds') % b = a := by
      rw [Nat.add_mul_mod_self_left, Nat.mod_eq_of_lt hab]
    have h2 : (a + b * local_site cs' ds') / b = local_site cs' ds' := by
      rw [Nat.add_mul_div_left _ _ hb, Nat.div_eq_of_lt hab, Nat.zero_add]
    rw [h1, h2, ih]

theorem local_site_crtesn {ds : List Nat} :
    ∀ {i : Nat}, i < ds.prod → local_site (crtesn i ds) ds = i := by
  induction ds with
  | nil =>
    intro i hi
    simp only [List.prod_nil] at hi
    interval_cases i
    simp [crtesn, local_site]
  | cons d ds' ih =>
    intro i hi
    simp only [List.prod_cons] at hi
    have hd : 0 < d := by
      rcases Nat.eq_zero_or_pos d with h0 | h0
      · subst h0; omega
      · exact h0
    have hdiv : i / d < ds'.prod := by
      rw [Nat.div_lt_iff_lt_mul hd]
      calc i < d * ds'.prod := hi
        _ = ds'.prod * d := Nat.mul_comm _ _
    simp only [crtesn, local_site]
    rw [ih hdiv, Nat.mod_add_div]

theorem crtesn_validCoord {ds : List Nat} :
    ∀ {i : Nat}, i < ds.prod → ValidCoord (crtesn i ds) ds := by
  induction ds with
  | nil =>
    intro i _
    exact validCoord_nil
  | cons d ds' ih =>
    intro i hi
    simp only [List.prod_cons] at hi
    have hd : 0 < d := by
      rcases Nat.eq_zero_or_pos d with h0 | h0
      · subst h0; omega
      · exact h0
    have hdiv : i / d < ds'.prod := by
      rw [Nat.div_lt_iff_lt_mul hd]
      calc i < d * ds'.prod := hi
        _ = ds'.prod * d := Nat.mul_comm _ _
    exact validCoord_cons (Nat.mod_lt _ hd) (ih hdiv)

theorem crtesn_length (i : Nat) (ds : List Nat) :
    (crtesn i ds).length = ds.length := by
  induction ds generalizing i with
  | nil => rfl
  | cons d ds' ih => simp [crtesn, ih]

/-- Helper for the two 2-checkerboard variants: halve component 0 of a
vector, leaving the rest unchanged (the source writes `v[0] >>= 1` in the
CB2 variant and `v[0] /= 2` in the CB3D variant; both equal division by two
on non-negative values). -/
def halveHead : List Nat → List Nat
  | [] => []
  | c :: cs => (c / 2) :: cs

/-- Lexicographic `Layout::siteCoords(node, linearsite)`: the node argument
is ignored on the scalar architecture. -/
def lex_siteCoords (nrow : List Nat) (_node linearsite : Nat) : List Nat :=
  crtesn linearsite nrow

/-- Lexicographic `Layout::linearSiteIndex(coord)`. -/
def lex_linearSiteIndex (nrow coord : List Nat) : Nat :=
  local_site coord nrow

/-- CB2 `Layout::siteCoords(node, linearsite)` (2-checkerboard red/black
layout; the node argument is ignored). -/
def cb2_siteCoords (nrow : List Nat) (_node linearsite : Nat) : List Nat :=
  let vol_cb := nrow.prod / 2
  let cb_nrow := halveHead nrow
  let cb := linearsite / vol_cb
  let coord := crtesn (linearsite % vol_cb) cb_nrow
  let cbb := (cb + coord.tail.sum) &&& 1
  match coord with
  | [] => []
  | c :: cs => (2 * c + cbb) :: cs

/-- CB2 `Layout::linearSiteIndex(coord)`: parity is the sum of all
components mod 2; the index is the lexicographic index over the grid with
component 0 halved, offset by parity times half the volume. -/
def cb2_linearSiteIndex (nrow coord : List Nat) : Nat :=
  let vol_cb := nrow.prod / 2
  let cb_nrow := halveHead nrow
  let cb_coord := halveHead coord
  let cb := coord.sum &&& 1
  local_site cb_coord cb_nrow + cb * vol_cb

/-- CB3D `Layout::siteCoords(node, linearsite)` (2-checkerboard layout in
3D, time running fastest; decodes with the time-fastest `crtesn` and sums
only components `1 .. Nd-2` for the parity correction). -/
def cb3d_siteCoords (nrow : List Nat) (_node linearsite : Nat) : List Nat :=
  let vol_cb := nrow.prod / 2
  let cb_nrow := halveHead nrow
  let cb := linearsite / vol_cb
  let coord := crtesn_cb3d (linearsite % vol_cb) cb_nrow
  let cbb := (cb + coord.tail.dropLast.sum) &&& 1
  match coord with
  | [] => []
  | c :: cs => (2 * c + cbb) :: cs

/-- CB3D `Layout::linearSiteIndex(coord)`: parity is the sum of components
`0 .. Nd-2` (the time component is excluded) mod 2; the position uses the
time-fastest `local_site` over the grid with component 0 halved. -/
def cb3d_linearSiteIndex (nrow coord : List Nat) : Nat :=
  let vol_cb := nrow.prod / 2
  let cb_nrow := halveHead nrow
  let cb_coord := halveHead coord
  let cb := coord.dropLast.sum &&& 1
  local_site_cb3d cb_coord cb_nrow + cb * vol_cb

/-- The CB32 sublattice bit accumulation loop
`subl = coord[Nd-1] & 1; for m = Nd-2 .. 0: subl = (subl << 1) + (coord[m] & 1)`:
bit `m` of the result is the low bit of `coord[m]`. -/
def sublBits (coord : List Nat) : Nat :=
  coord.foldr (fun c s => (s <<< 1) + (c &&& 1)) 0

/-- The CB32 low-bit restoration loop
`for m = 0 .. Nd-1: coord[m] ^= (subl & (1 << m)) >> m`, started at bit
position `m`. -/
def xorLowBits : List Nat → Nat → Nat → List Nat
  | [], _, _ => []
  | c :: cs, s, m => (c ^^^ ((s >>> m) &&& 1)) :: xorLowBits cs s (m + 1)

/-- CB32 `Layout::linearSiteIndex(coord)` (32-style checkerboard layout):
the sublattice id is one low bit per dimension plus the hypercube parity
bit `(sum of coord[m] >> 1) & 1` as bit `Nd`; the position is the
lexicographic index of the shrunk coordinate (component 0 shifted right by
2, the rest by 1) over the shrunk grid. -/
def cb32_linearSiteIndex (nrow coord : List Nat) : Nat :=
  let nd := nrow.length
  let vol_cb := nrow.prod >>> (nd + 1)
  let cb_nrow := (nrow.headI >>> 2) :: nrow.tail.map (· >>> 1)
  let subl := sublBits coord + (((coord.map (· >>> 1)).sum &&& 1) <<< nd)
  let cb_coord := (coord.headI >>> 2) :: coord.tail.map (· >>> 1)
  local_site cb_coord cb_nrow + subl * vol_cb

/-- CB32 `Layout::siteCoords(node, linearsite)` (the node argument is
ignored): decode sublattice id and shrunk coordinate, flip the hypercube
parity bit back in, expand the coordinate and restore its low bits from the
sublattice id (the top bit folds into bit 1 of component 0). -/
def cb32_siteCoords (nrow : List Nat) (_node linearsite : Nat) : List Nat :=
  let nd := nrow.length
  let vol_cb := nrow.prod >>> (nd + 1)
  let cb_nrow := (nrow.headI >>> 2) :: nrow.tail.map (· >>> 1)
  let subl := linearsite / vol_cb
  let coord := crtesn (linearsite % vol_cb) cb_nrow
  let cb := coord.tail.sum &&& 1
  let coord2 := (coord.headI <<< 2) :: coord.tail.map (· <<< 1)
  let subl2 := subl ^^^ (cb <<< nd)
  let coord3 := xorLowBits coord2 subl2 0
  (coord3.headI ^^^ ((subl2 &&& (1 <<< nd)) >>> (nd - 1))) :: coord3.tail

/-- The layout variant selected at build time by exactly one of
`QDP_USE_LEXICO_LAYOUT`, `QDP_USE_CB2_LAYOUT`, `QDP_USE_CB3D_LAYOUT`,
`QDP_USE_CB32_LAYOUT`. -/
inductive LayoutVariant
  | lexico
  | cb2
  | cb3d
  | cb32
deriving DecidableEq

/-- `Layout::siteCoords` of the active build variant. -/
def layout_siteCoords (v : LayoutVariant) (nrow : List Nat) (node linearsite : Nat) :
    List Nat :=
  match v with
  | .lexico => lex_siteCoords nrow node linearsite
  | .cb2 => cb2_siteCoords nrow node linearsite
  | .cb3d => cb3d_siteCoords nrow node linearsite
  | .cb32 => cb32_siteCoords nrow node linearsite

/-- `Layout::linearSiteIndex` of the active build variant. -/
def layout_linearSiteIndex (v : LayoutVariant) (nrow coord : List Nat) : Nat :=
  match v with
  | .lexico => lex_linearSiteIndex nrow coord
  | .cb2 => cb2_linearSiteIndex nrow coord
  | .cb3d => cb3d_linearSiteIndex nrow coord
  | .cb32 => cb32_linearSiteIndex nrow coord

/-- The `Layout::LocalLayout_t` struct of the scalar layout. -/
structure LocalLayout where
  vol : Nat
  nrow : List Nat
  subgrid_vol : Nat
  logical_coord : List Nat
  logical_size : List Nat
  iogrid : List Nat
deriving DecidableEq

/-- `Layout::setIONodeGridDefaults()`: on the scalar machine the I/O grid
is always `1 x 1 x ... x 1`. -/
def setIONodeGridDefaults (nd : Nat) (st : LocalLayout) : LocalLayout :=
  { st with iogrid := List.replicate nd 1 }

/-- `Layout::setIONodeGrid(io_grid)`: the user-supplied grid is completely
ignored and the defaults are installed instead. -/
def setIONodeGrid (_io_grid : List Nat) (nd : Nat) (st : LocalLayout) : LocalLayout :=
  setIONodeGridDefaults nd st

/-- `Layout::getIONodeGrid()`. -/
def getIONodeGrid (st : LocalLayout) : List Nat :=
  st.iogrid

/-- `Layout::isIOGridDefined()`: always true on the scalar architecture. -/
def isIOGridDefined : Bool := true

/-- `Layout::numIONodeGrid()`: always 1 on the scalar architecture. -/
def numIONodeGrid : Nat := 1

/-- `Layout::nodeNumber()`: always node 0 on the scalar architecture. -/
def nodeNumber : Nat := 0

/-- `Layout::create()`: fails fatally (modelled as `Except.error` with the
message passed to `QDP_error_exit`) when QDP is not initialized or when the
stored lattice size does not have `Nd` components; otherwise computes the
volume as the product of the extents, fills in the trivial single-node
geometry, and sweeps every linear index through
`linearSiteIndex(siteCoords(nodeNumber(), i))`, failing fatally on any
mismatch.  On success `initDefaults` installs the default I/O grid (its RNG,
allocator and subset initializations are external to this core). -/
def create (v : LayoutVariant) (qdp_isInitialized : Bool) (nd : Nat)
    (st : LocalLayout) : Except String LocalLayout :=
  if ¬ qdp_isInitialized then
    .error "QDP is not initialized"
  else if st.nrow.length ≠ nd then
    .error "dimension of lattice size not the same as the default"
  else
    let vol := st.nrow.prod
    if (List.range vol).all
        (fun i => layout_linearSiteIndex v st.nrow
            (layout_siteCoords v st.nrow nodeNumber i) == i) then
      .ok (setIONodeGridDefaults nd
        { st with
          vol := vol
          subgrid_vol := vol
          logical_coord := List.replicate nd 0
          logical_size := List.replicate nd 1 })
    else
      .error "Layout::create - Layout problems, the layout functions do not work correctly with this lattice size"

/-- `MapObjectMemory<K,V>`, with the key type already in serialized form:
the C++ class stores values under `bin.str()` produced by
`write(BinaryBufferWriter, key)`; the serialization map `ser` is passed
explicitly to each operation below. -/
structure MapObjectMemory (KS V : Type) where
  src_map : List (KS × V)
  user_data : String

/-- Replace the value of the first entry holding the given serialized key
(the `iter->second = val` branch of `MapObjectMemory::insert`). -/
def replaceFirst {KS V : Type} [DecidableEq KS] :
    List (KS × V) → KS → V → List (KS × V)
  | [], _, _ => []
  | p :: rest, k, v => if p.1 = k then (k, v) :: rest else p :: replaceFirst rest k v

/-- Remove the first entry holding the given serialized key (the
`src_map.erase(iter)` branch of `MapObjectMemory::erase`). -/
def eraseFirst {KS V : Type} [DecidableEq KS] :
    List (KS × V) → KS → List (KS × V)
  | [], _ => []
  | p :: rest, k => if p.1 = k then rest else p :: eraseFirst rest k

namespace MapObjectMemory

variable {K KS V : Type} [DecidableEq KS]

/-- `MapObjectMemory::insert(key, val)`: serialize the key; overwrite the
value if the serialized key is present, otherwise add a new entry; always
return 0. -/
def insert (ser : K → KS) (key : K) (val : V) (m : MapObjectMemory KS V) :
    Nat × MapObjectMemory KS V :=
  let bin_key := ser key
  match m.src_map.lookup bin_key with
  | some _ => (0, { m with src_map := replaceFirst m.src_map bin_key val })
  | none => (0, { m with src_map := (bin_key, val) :: m.src_map })

/-- `MapObjectMemory::get(key, val)`: return 1 leaving `val` untouched when
the serialized key is absent, else return 0 and the stored value. -/
def get (ser : K → KS) (key : K) (val : V) (m : MapObjectMemory KS V) :
    Nat × V :=
  match m.src_map.lookup (ser key) with
  | none => (1, val)
  | some v => (0, v)

/-- `MapObjectMemory::erase(key)`: remove the entry when present, do
nothing otherwise. -/
def erase (ser : K → KS) (key : K) (m : MapObjectMemory KS V) :
    MapObjectMemory KS V :=
  match m.src_map.lookup (ser key) with
  | some _ => { m with src_map := eraseFirst m.src_map (ser key) }
  | none => m

/-- `MapObjectMemory::exist(key)`. -/
def exist (ser : K → KS) (key : K) (m : MapObjectMemory KS V) : Bool :=
  match m.src_map.lookup (ser key) with
  | none => false
  | some _ => true

/-- `MapObjectMemory::size()`. -/
def size (m : MapObjectMemory KS V) : Nat :=
  m.src_map.length

end MapObjectMemory

/-- The sublattice id of the CB32 layout as the spec's bit layout describes
it: bit `m` (for `m < Nd`, in ascending dimension order) is the low bit of
`coord[m]`, and bit `Nd` is the parity of the sum of `coord[m] >> 1` over
all dimensions. -/
def cb32_layout_sublattice (nd : Nat) (coord : List Nat) : Nat :=
  ((List.range nd).map (fun m => (coord.getD m 0 % 2) * 2 ^ m)).sum
    + (((List.range nd).map (fun m => coord.getD m 0 / 2)).sum % 2) * 2 ^ nd

/-- The CB32 forward index as the spec's bit layout describes it: the
lexicographic index of the shrunk coordinate (component 0 divided by 4,
others by 2) over the shrunk grid, plus the sublattice id times
`volume / 2^(Nd+1)`. -/
def cb32_layout_index (nrow coord : List Nat) : Nat :=
  let nd := nrow.length
  let shrunk_nrow := (nrow.headI / 4) :: nrow.tail.map (· / 2)
  let shrunk_coord := (coord.headI / 4) :: coord.tail.map (· / 2)
  local_site shrunk_coord shrunk_nrow
    + cb32_layout_sublattice nd coord * (nrow.prod / 2 ^ (nd + 1))

theorem lex_rt_index {nrow : List Nat} (node : Nat) {i : Nat}
    (hi : i < nrow.prod) :
    lex_linearSiteIndex nrow (lex_siteCoords nrow node i) = i :=
  local_site_crtesn hi

theorem lex_rt_coord {nrow c : List Nat} (node : Nat) (hv : ValidCoord c nrow) :
    lex_siteCoords nrow node (lex_linearSiteIndex nrow c) = c :=
  crtesn_local_site hv

theorem cb2_rt_index (a : Nat) (ds : List Nat) (node : Nat) {i : Nat}
    (hi : i < (2 * a :: ds).prod) :
    cb2_linearSiteIndex (2 * a :: ds) (cb2_siteCoords (2 * a :: ds) node i) = i := by
  have hP : i < 2 * (a * ds.prod) := by
    simpa [List.prod_cons, Nat.mul_assoc] using hi
  have hpos : 0 < a * ds.prod := by
    rcases Nat.eq_zero_or_pos (a * ds.prod) with h | h
    · omega
    · exact h
  have hvolcb : (2 * a :: ds).prod / 2 = a * ds.prod := by
    simp [List.prod_cons, Nat.mul_assoc, Nat.mul_div_cancel_left]
  have hhalve : halveHead (2 * a :: ds) = a :: ds := by
    simp [halveHead, Nat.mul_div_cancel_left]
  have ha : 0 < a := by
    rcases Nat.eq_zero_or_pos a with h | h
    · subst h; simp at hpos
    · exact h
  have hcb1 : i / (a * ds.prod) ≤ 1 := by
    have h2 : i / (a * ds.prod) < 2 := by
      rw [Nat.div_lt_iff_lt_mul hpos]
      omega
    omega
  have hr : i % (a * ds.prod) < a * ds.prod := Nat.mod_lt _ hpos
  have hrP : i % (a * ds.prod) < (a :: ds).prod := by
    simpa [List.prod_cons] using hr
  have hcrt : crtesn (i % (a * ds.prod)) (a :: ds)
      = (i % (a * ds.prod) % a) :: crtesn (i % (a * ds.prod) / a) ds := rfl
  have hls : local_site ((i % (a * ds.prod) % a) :: crtesn (i % (a * ds.prod) / a) ds)
      (a :: ds) = i % (a * ds.prod) := by
    rw [← hcrt]
    exact local_site_crtesn hrP
  have hsc : cb2_siteCoords (2 * a :: ds) node i
      = (2 * (i % (a * ds.prod) % a)
          + (i / (a * ds.prod) + (crtesn (i % (a * ds.prod) / a) ds).sum) % 2)
        :: crtesn (i % (a * ds.prod) / a) ds := by
    simp only [cb2_siteCoords, hvolcb, hhalve, hcrt, Nat.and_one_is_mod, List.tail_cons]
  rw [hsc]
  have hmod : i % (a * ds.prod) % a < a := Nat.mod_lt _ ha
  have hcbb : (i / (a * ds.prod) + (crtesn (i % (a * ds.prod) / a) ds).sum) % 2 ≤ 1 := by
    omega
  have hhalve2 : halveHead
      ((2 * (i % (a * ds.prod) % a)
          + (i / (a * ds.prod) + (crtesn (i % (a * ds.prod) / a) ds).sum) % 2)
        :: crtesn (i % (a * ds.prod) / a) ds)
      = (i % (a * ds.prod) % a) :: crtesn (i % (a * ds.prod) / a) ds := by
    simp only [halveHead]
    congr 1
    omega
  simp only [cb2_linearSiteIndex, hvolcb, hhalve, hhalve2, Nat.and_one_is_mod,
    List.sum_cons, hls]
  have hparity : (2 * (i % (a * ds.prod) % a)
      + (i / (a * ds.prod) + (crtesn (i % (a * ds.prod) / a) ds).sum) % 2
      + (crtesn (i % (a * ds.prod) / a) ds).sum) % 2 = i / (a * ds.prod) := by
    generalize i / (a * ds.prod) = f at hcb1 ⊢
    omega
  rw [hparity, Nat.mod_add_div']

theorem cb2_rt_coord (a c0 : Nat) (ds cs : List Nat) (node : Nat)
    (h0 : c0 < 2 * a) (hcs : ValidCoord cs ds) :
    cb2_siteCoords (2 * a :: ds) node (cb2_linearSiteIndex (2 * a :: ds) (c0 :: cs))
      = c0 :: cs := by
  have ha : 0 < a := by omega
  have hvolcb : (2 * a :: ds).prod / 2 = a * ds.prod := by
    simp [List.prod_cons, Nat.mul_assoc, Nat.mul_div_cancel_left]
  have hhalve : halveHead (2 * a :: ds) = a :: ds := by
    simp [halveHead, Nat.mul_div_cancel_left]
  have hc0 : c0 / 2 < a := by omega
  have hvalid : ValidCoord (c0 / 2 :: cs) (a :: ds) := validCoord_cons hc0 hcs
  have hL : local_site (c0 / 2 :: cs) (a :: ds) < a * ds.prod := by
    have := local_site_lt_prod hvalid
    simpa [List.prod_cons] using this
  have hpos : 0 < a * ds.prod := by omega
  have hhalvec : halveHead (c0 :: cs) = c0 / 2 :: cs := rfl
  have hidx : cb2_linearSiteIndex (2 * a :: ds) (c0 :: cs)
      = local_site (c0 / 2 :: cs) (a :: ds) + (c0 + cs.sum) % 2 * (a * ds.prod) := by
    simp only [cb2_linearSiteIndex, hvolcb, hhalve, hhalvec, Nat.and_one_is_mod,
      List.sum_cons]
  rw [hidx]
  have hdiv : (local_site (c0 / 2 :: cs) (a :: ds) + (c0 + cs.sum) % 2 * (a * ds.prod))
      / (a * ds.prod) = (c0 + cs.sum) % 2 := by
    rw [Nat.mul_comm ((c0 + cs.sum) % 2) (a * ds.prod),
      Nat.add_mul_div_left _ _ hpos, Nat.div_eq_of_lt hL, Nat.zero_add]
  have hmod : (local_site (c0 / 2 :: cs) (a :: ds) + (c0 + cs.sum) % 2 * (a * ds.prod))
      % (a * ds.prod) = local_site (c0 / 2 :: cs) (a :: ds) := by
    rw [Nat.add_mul_mod_self_right, Nat.mod_eq_of_lt hL]
  have hcrt : crtesn (local_site (c0 / 2 :: cs) (a :: ds)) (a :: ds) = c0 / 2 :: cs :=
    crtesn_local_site hvalid
  simp only [cb2_siteCoords, hvolcb, hhalve, hdiv, hmod, hcrt, Nat.and_one_is_mod,
    List.tail_cons]
  congr 1
  omega

theorem validCoord_append {xs l ys l' : List Nat} (h1 : ValidCoord xs l)
    (h2 : ValidCoord ys l') : ValidCoord (xs ++ ys) (l ++ l') := by
  induction h1 with
  | nil => exact h2
  | cons hab _ ih => exact List.Forall₂.cons hab ih

theorem validCoord_concat_split {xs l : List Nat} {b : Nat}
    (h : ValidCoord xs (l ++ [b])) :
    ∃ ys y, xs = ys ++ [y] ∧ ValidCoord ys l ∧ y < b := by
  induction l generalizing xs with
  | nil =>
    rcases h with _ | ⟨hyb, htl⟩
    rcases htl with _ | _
    exact ⟨[], _, rfl, validCoord_nil, hyb⟩
  | cons d l' ih =>
    rcases h with _ | ⟨hxd, htl⟩
    obtain ⟨ys, y, rfl, hys, hyb⟩ := ih htl
    exact ⟨_ :: ys, y, rfl, validCoord_cons hxd hys, hyb⟩

theorem local_site_cb3d_concat (cs ds : List Nat) (u t : Nat) :
    local_site_cb3d (cs ++ [u]) (ds ++ [t]) = u + t * local_site cs ds := by
  simp [local_site_cb3d, List.getLastD_concat, List.dropLast_concat]

theorem crtesn_cb3d_concat (i : Nat) (ds : List Nat) (t : Nat) :
    crtesn_cb3d i (ds ++ [t]) = crtesn (i / t) ds ++ [i % t] := by
  simp [crtesn_cb3d, List.getLastD_concat, List.dropLast_concat]

theorem local_site_cb3d_lt_prod {cs ds : List Nat} {u t : Nat}
    (hcs : ValidCoord cs ds) (hu : u < t) :
    local_site_cb3d (cs ++ [u]) (ds ++ [t]) < (ds ++ [t]).prod := by
  rw [local_site_cb3d_concat]
  have hL := local_site_lt_prod hcs
  have hprod : (ds ++ [t]).prod = t * ds.prod := by
    simp [List.prod_append]; ring
  rw [hprod]
  have h1 : t * (local_site cs ds + 1) ≤ t * ds.prod := Nat.mul_le_mul_left t hL
  have h2 : t * (local_site cs ds + 1) = t * local_site cs ds + t := by ring
  omega

theorem local_site_cb3d_crtesn {ds : List Nat} {t i : Nat}
    (hi : i < (ds ++ [t]).prod) :
    local_site_cb3d (crtesn_cb3d i (ds ++ [t])) (ds ++ [t]) = i := by
  have hprod : (ds ++ [t]).prod = ds.prod * t := by simp [List.prod_append]
  have ht : 0 < t := by
    rcases Nat.eq_zero_or_pos t with h | h
    · rw [hprod, h, Nat.mul_zero] at hi; omega
    · exact h
  have hdiv : i / t < ds.prod := by
    rw [Nat.div_lt_iff_lt_mul ht, ← hprod]
    exact hi
  rw [crtesn_cb3d_concat, local_site_cb3d_concat, local_site_crtesn hdiv,
    Nat.mod_add_div]

theorem crtesn_cb3d_local_site {cs ds : List Nat} {u t : Nat}
    (hcs : ValidCoord cs ds) (hu : u < t) :
    crtesn_cb3d (local_site_cb3d (cs ++ [u]) (ds ++ [t])) (ds ++ [t]) = cs ++ [u] := by
  have ht : 0 < t := by omega
  rw [local_site_cb3d_concat, crtesn_cb3d_concat]
  have h1 : (u + t * local_site cs ds) / t = local_site cs ds := by
    rw [Nat.add_mul_div_left _ _ ht, Nat.div_eq_of_lt hu, Nat.zero_add]
  have h2 : (u + t * local_site cs ds) % t = u := by
    rw [Nat.add_mul_mod_self_left, Nat.mod_eq_of_lt hu]
  rw [h1, h2, crtesn_local_site hcs]

theorem crtesn_cb3d_validCoord {ds : List Nat} {t i : Nat}
    (hi : i < (ds ++ [t]).prod) :
    ValidCoord (crtesn_cb3d i (ds ++ [t])) (ds ++ [t]) := by
  have hprod : (ds ++ [t]).prod = ds.prod * t := by simp [List.prod_append]
  have ht : 0 < t := by
    rcases Nat.eq_zero_or_pos t with h | h
    · rw [hprod, h, Nat.mul_zero] at hi; omega
    · exact h
  have hdiv : i / t < ds.prod := by
    rw [Nat.div_lt_iff_lt_mul ht, ← hprod]
    exact hi
  rw [crtesn_cb3d_concat]
  exact validCoord_append (crtesn_validCoord hdiv)
    (validCoord_cons (Nat.mod_lt _ ht) validCoord_nil)

theorem cb3d_rt_index (a : Nat) (es : List Nat) (t node : Nat) {i : Nat}
    (hi : i < (2 * a :: (es ++ [t])).prod) :
    cb3d_linearSiteIndex (2 * a :: (es ++ [t]))
      (cb3d_siteCoords (2 * a :: (es ++ [t])) node i) = i := by
  have hP : i < 2 * (a * (es ++ [t]).prod) := by
    simpa [List.prod_cons, Nat.mul_assoc] using hi
  have hpos : 0 < a * (es ++ [t]).prod := by
    rcases Nat.eq_zero_or_pos (a * (es ++ [t]).prod) with h | h
    · omega
    · exact h
  have hvolcb : (2 * a :: (es ++ [t])).prod / 2 = a * (es ++ [t]).prod := by
    simp [List.prod_cons, Nat.mul_assoc, Nat.mul_div_cancel_left]
  have hhalve : halveHead (2 * a :: (es ++ [t])) = (a :: es) ++ [t] := by
    simp [halveHead, Nat.mul_div_cancel_left]
  have hcb1 : i / (a * (es ++ [t]).prod) ≤ 1 := by
    have h2 : i / (a * (es ++ [t]).prod) < 2 := by
      rw [Nat.div_lt_iff_lt_mul hpos]
      omega
    omega
  have hr : i % (a * (es ++ [t]).prod) < a * (es ++ [t]).prod := Nat.mod_lt _ hpos
  have hrP : i % (a * (es ++ [t]).prod) < ((a :: es) ++ [t]).prod := by
    have heq : ((a :: es) ++ [t]).prod = a * (es ++ [t]).prod := by
      simp [List.prod_append, List.prod_cons]
    omega
  obtain ⟨ys, u, hys, hval, hu⟩ :=
    validCoord_concat_split (crtesn_cb3d_validCoord hrP)
  obtain ⟨h0, hs, h0a, hhs, rfl⟩ : ∃ h0 hs, h0 < a ∧ ValidCoord hs es ∧ ys = h0 :: hs := by
    rcases hval with _ | ⟨hab, htl⟩
    exact ⟨_, _, hab, htl, rfl⟩
  have hys2 : crtesn_cb3d (i % (a * (es ++ [t]).prod)) (a :: (es ++ [t]))
      = h0 :: (hs ++ [u]) := by
    simpa [List.cons_append] using hys
  have hls : local_site_cb3d (h0 :: (hs ++ [u])) (a :: (es ++ [t]))
      = i % (a * (es ++ [t]).prod) := by
    have h := local_site_cb3d_crtesn hrP
    rw [hys] at h
    simpa [List.cons_append] using h
  have hsc : cb3d_siteCoords (2 * a :: (es ++ [t])) node i
      = (2 * h0 + (i / (a * (es ++ [t]).prod) + hs.sum) % 2) :: (hs ++ [u]) := by
    simp only [cb3d_siteCoords, hvolcb, hhalve, List.cons_append, hys2,
      Nat.and_one_is_mod, List.tail_cons, List.dropLast_concat]
  rw [hsc]
  have hcbb : (i / (a * (es ++ [t]).prod) + hs.sum) % 2 ≤ 1 := by omega
  have hhalve2 : halveHead
      ((2 * h0 + (i / (a * (es ++ [t]).prod) + hs.sum) % 2) :: (hs ++ [u]))
      = h0 :: (hs ++ [u]) := by
    simp only [halveHead]
    congr 1
    omega
  have hdrop : ((2 * h0 + (i / (a * (es ++ [t]).prod) + hs.sum) % 2)
      :: (hs ++ [u])).dropLast
      = (2 * h0 + (i / (a * (es ++ [t]).prod) + hs.sum) % 2) :: hs := by
    rw [show (2 * h0 + (i / (a * (es ++ [t]).prod) + hs.sum) % 2) :: (hs ++ [u])
        = ((2 * h0 + (i / (a * (es ++ [t]).prod) + hs.sum) % 2) :: hs) ++ [u] from rfl,
      List.dropLast_concat]
  simp only [cb3d_linearSiteIndex, hvolcb, hhalve, List.cons_append, hhalve2, hdrop,
    Nat.and_one_is_mod, List.sum_cons, hls]
  have hparity : (2 * h0 + (i / (a * (es ++ [t]).prod) + hs.sum) % 2 + hs.sum) % 2
      = i / (a * (es ++ [t]).prod) := by
    generalize i / (a * (es ++ [t]).prod) = f at hcb1 ⊢
    omega
  rw [hparity, Nat.mod_add_div']

theorem cb3d_rt_coord (a c0 : Nat) (es : List Nat) (t u node : Nat) {mid : List Nat}
    (h0 : c0 < 2 * a) (hmid : ValidCoord mid es) (hu : u < t) :
    cb3d_siteCoords (2 * a :: (es ++ [t])) node
      (cb3d_linearSiteIndex (2 * a :: (es ++ [t])) (c0 :: (mid ++ [u])))
      = c0 :: (mid ++ [u]) := by
  have ha : 0 < a := by omega
  have hvolcb : (2 * a :: (es ++ [t])).prod / 2 = a * (es ++ [t]).prod := by
    simp [List.prod_cons, Nat.mul_assoc, Nat.mul_div_cancel_left]
  have hhalve : halveHead (2 * a :: (es ++ [t])) = a :: (es ++ [t]) := by
    simp [halveHead, Nat.mul_div_cancel_left]
  have hhalvec : halveHead (c0 :: (mid ++ [u])) = c0 / 2 :: (mid ++ [u]) := rfl
  have hc0 : c0 / 2 < a := by omega
  have hvalid : ValidCoord (c0 / 2 :: mid) (a :: es) := validCoord_cons hc0 hmid
  have hL : local_site_cb3d (c0 / 2 :: (mid ++ [u])) (a :: (es ++ [t]))
      < a * (es ++ [t]).prod := by
    have h := local_site_cb3d_lt_prod hvalid hu
    have heq : (a :: (es ++ [t])).prod = a * (es ++ [t]).prod := by
      simp [List.prod_cons]
    simp only [List.cons_append] at h
    omega
  have hpos : 0 < a * (es ++ [t]).prod := by omega
  have hdropc : (c0 :: (mid ++ [u])).dropLast = c0 :: mid := by
    rw [show c0 :: (mid ++ [u]) = (c0 :: mid) ++ [u] from rfl, List.dropLast_concat]
  have hidx : cb3d_linearSiteIndex (2 * a :: (es ++ [t])) (c0 :: (mid ++ [u]))
      = local_site_cb3d (c0 / 2 :: (mid ++ [u])) (a :: (es ++ [t]))
        + (c0 + mid.sum) % 2 * (a * (es ++ [t]).prod) := by
    simp only [cb3d_linearSiteIndex, hvolcb, hhalve, hhalvec, hdropc,
      Nat.and_one_is_mod, List.sum_cons]
  rw [hidx]
  have hdiv : (local_site_cb3d (c0 / 2 :: (mid ++ [u])) (a :: (es ++ [t]))
      + (c0 + mid.sum) % 2 * (a * (es ++ [t]).prod)) / (a * (es ++ [t]).prod)
      = (c0 + mid.sum) % 2 := by
    rw [Nat.mul_comm ((c0 + mid.sum) % 2) (a * (es ++ [t]).prod),
      Nat.add_mul_div_left _ _ hpos, Nat.div_eq_of_lt hL, Nat.zero_add]
  have hmod : (local_site_cb3d (c0 / 2 :: (mid ++ [u])) (a :: (es ++ [t]))
      + (c0 + mid.sum) % 2 * (a * (es ++ [t]).prod)) % (a * (es ++ [t]).prod)
      = local_site_cb3d (c0 / 2 :: (mid ++ [u])) (a :: (es ++ [t])) := by
    rw [Nat.add_mul_mod_self_right, Nat.mod_eq_of_lt hL]
  have hcrt : crtesn_cb3d
      (local_site_cb3d (c0 / 2 :: (mid ++ [u])) (a :: (es ++ [t])))
      (a :: (es ++ [t])) = c0 / 2 :: (mid ++ [u]) := by
    have h := crtesn_cb3d_local_site hvalid hu
    simpa [List.cons_append] using h
  simp only [cb3d_siteCoords, hvolcb, hhalve, hdiv, hmod, hcrt, Nat.and_one_is_mod,
    List.tail_cons, List.dropLast_concat]
  congr 1
  omega

theorem two_pow_mul_xor {k b : Nat} (a : Nat) (hb : b < 2 ^ k) :
    2 ^ k * a ^^^ b = 2 ^ k * a + b := by
  apply Nat.eq_of_testBit_eq
  intro i
  rw [Nat.testBit_xor, Nat.testBit_mul_pow_two_add a hb i, Nat.testBit_mul_pow_two]
  rcases Nat.lt_or_ge i k with h | h
  · simp [h, Nat.not_le_of_lt h]
  · have hbk : b < 2 ^ i :=
      lt_of_lt_of_le hb (Nat.pow_le_pow_right (by norm_num) h)
    have hbi : b.testBit i = false := Nat.testBit_lt_two_pow hbk
    simp [h, Nat.not_lt_of_le h, hbi]

theorem two_mul_xor_bit (a b : Nat) (hb : b ≤ 1) : 2 * a ^^^ b = 2 * a + b := by
  have h := two_pow_mul_xor (k := 1) a (show b < 2 ^ 1 by omega)
  simpa using h

theorem xor_two_pow_add {low N : Nat} (hlow : low < 2 ^ N) :
    low ^^^ 2 ^ N = low + 2 ^ N := by
  have h : 2 ^ N * 1 ^^^ low = 2 ^ N * 1 + low := two_pow_mul_xor 1 hlow
  rw [Nat.mul_one] at h
  rw [Nat.xor_comm low, h, Nat.add_comm]

theorem xor_two_pow_self_add {low N : Nat} (hlow : low < 2 ^ N) :
    (low + 2 ^ N) ^^^ 2 ^ N = low := by
  rw [← xor_two_pow_add hlow, Nat.xor_assoc, Nat.xor_self, Nat.xor_zero]

theorem xor_high_bit {low p e N : Nat} (hlow : low < 2 ^ N) (hp : p ≤ 1) (he : e ≤ 1) :
    (low + p * 2 ^ N) ^^^ e * 2 ^ N = low + (p + e) % 2 * 2 ^ N := by
  interval_cases p <;> interval_cases e <;>
    simp [xor_two_pow_add hlow, xor_two_pow_self_add hlow]

theorem mod_two_pow_succ (u n : Nat) :
    u % 2 ^ (n + 1) = 2 * (u / 2 % 2 ^ n) + u % 2 := by
  rw [pow_succ', Nat.mod_mul]
  omega

theorem add_high_div_mod {a q N m : Nat} (_ha : a < 2 ^ N) (hq : q ≤ 1) (hm : m < N) :
    (a + q * 2 ^ N) / 2 ^ m % 2 = a / 2 ^ m % 2 := by
  interval_cases q
  · simp
  · have hsplit : 2 ^ N = 2 ^ m * 2 ^ (N - m) := by
      rw [← pow_add]
      congr 1
      omega
    have h1 : (a + 1 * 2 ^ N) / 2 ^ m = a / 2 ^ m + 2 ^ (N - m) := by
      rw [Nat.one_mul, hsplit, Nat.add_mul_div_left _ _ (Nat.two_pow_pos m)]
    rw [h1]
    have h2 : 2 ^ (N - m) = 2 * 2 ^ (N - m - 1) := by
      rw [← pow_succ']
      congr 1
      omega
    omega

theorem add_high_top {a q N : Nat} (ha : a < 2 ^ N) :
    (a + q * 2 ^ N) / 2 ^ N = q := by
  rw [Nat.add_mul_div_right _ _ (Nat.two_pow_pos N), Nat.div_eq_of_lt ha,
    Nat.zero_add]

theorem sublBits_cons (c : Nat) (cs : List Nat) :
    sublBits (c :: cs) = 2 * sublBits cs + c % 2 := by
  simp [sublBits, Nat.shiftLeft_eq, Nat.and_one_is_mod, Nat.mul_comm]

theorem sublBits_lt (cs : List Nat) : sublBits cs < 2 ^ cs.length := by
  induction cs with
  | nil => simp [sublBits]
  | cons c cs ih =>
    rw [sublBits_cons]
    simp only [List.length_cons, pow_succ]
    omega

theorem sublBits_testbit (cs : List Nat) :
    ∀ j, j < cs.length → sublBits cs / 2 ^ j % 2 = cs.getD j 0 % 2 := by
  induction cs with
  | nil =>
    intro j hj
    simp at hj
  | cons c cs ih =>
    intro j hj
    rcases j with _ | j
    · rw [sublBits_cons]
      simp only [pow_zero, Nat.div_one, List.getD_cons_zero]
      omega
    · rw [sublBits_cons]
      have h1 : (2 * sublBits cs + c % 2) / 2 ^ (j + 1) = sublBits cs / 2 ^ j := by
        rw [pow_succ, Nat.mul_comm (2 ^ j) 2, ← Nat.div_div_eq_div_mul]
        congr 1
        omega
      rw [h1, List.getD_cons_succ]
      exact ih j (by simpa using hj)

theorem xorLowBits_reconstruct : ∀ (cs : List Nat) (s m : Nat),
    (∀ j, j < cs.length → s / 2 ^ (m + j) % 2 = cs.getD j 0 % 2) →
    xorLowBits (cs.map (fun x => 2 * (x / 2))) s m = cs := by
  intro cs
  induction cs with
  | nil =>
    intro s m _
    rfl
  | cons c cs ih =>
    intro s m h
    simp only [List.map_cons, xorLowBits]
    have hb : s >>> m &&& 1 = c % 2 := by
      rw [Nat.and_one_is_mod, Nat.shiftRight_eq_div_pow]
      simpa using h 0 (by simp)
    rw [hb, two_mul_xor_bit _ _ (by omega)]
    congr 1
    · omega
    · apply ih
      intro j hj
      have hh := h (j + 1) (by simpa using Nat.succ_lt_succ hj)
      rw [show m + 1 + j = m + (j + 1) by omega]
      simpa using hh

theorem xorLowBits_div_two : ∀ (hs : List Nat) (s m : Nat),
    (xorLowBits (hs.map (fun x => 2 * x)) s m).map (· / 2) = hs := by
  intro hs
  induction hs with
  | nil =>
    intros
    rfl
  | cons h hs ih =>
    intro s m
    simp only [List.map_cons, xorLowBits]
    congr 1
    · have hb : s >>> m &&& 1 ≤ 1 := by
        rw [Nat.and_one_is_mod]
        omega
      rw [two_mul_xor_bit _ _ hb]
      omega
    · exact ih s (m + 1)

theorem sublBits_xorLowBits : ∀ (hs : List Nat) (s m : Nat),
    sublBits (xorLowBits (hs.map (fun x => 2 * x)) s m) = s / 2 ^ m % 2 ^ hs.length := by
  intro hs
  induction hs with
  | nil =>
    intro s m
    simp [sublBits, xorLowBits, Nat.mod_one]
  | cons h hs ih =>
    intro s m
    simp only [List.map_cons, xorLowBits, sublBits_cons, List.length_cons]
    rw [ih s (m + 1)]
    have hb : s >>> m &&& 1 = s / 2 ^ m % 2 := by
      rw [Nat.and_one_is_mod, Nat.shiftRight_eq_div_pow]
    rw [hb]
    have hxor : (2 * h ^^^ s / 2 ^ m % 2) % 2 = s / 2 ^ m % 2 := by
      rw [two_mul_xor_bit _ _ (by omega)]
      omega
    rw [hxor]
    have hsplit : s / 2 ^ (m + 1) = s / 2 ^ m / 2 := by
      rw [pow_succ, ← Nat.div_div_eq_div_mul]
    rw [hsplit]
    exact (mod_two_pow_succ (s / 2 ^ m) hs.length).symm

theorem shiftr_one_eq (x : Nat) : x >>> 1 = x / 2 := by
  rw [Nat.shiftRight_eq_div_pow]

theorem shiftr_two_eq (x : Nat) : x >>> 2 = x / 4 := by
  rw [Nat.shiftRight_eq_div_pow]

theorem shiftl_one_eq (x : Nat) : x <<< 1 = 2 * x := by
  rw [Nat.shiftLeft_eq]
  ring

theorem shiftl_two_eq (x : Nat) : x <<< 2 = 4 * x := by
  rw [Nat.shiftLeft_eq]
  ring

theorem prod_even_split {ds : List Nat} (h : ∀ d ∈ ds, 2 ∣ d) :
    ds.prod = 2 ^ ds.length * (ds.map (· / 2)).prod := by
  induction ds with
  | nil => simp
  | cons d ds ih =>
    obtain ⟨b, rfl⟩ := h d (by simp)
    have ih2 := ih (fun x hx => h x (by simp [hx]))
    simp only [List.prod_cons, List.map_cons, List.length_cons, ih2,
      Nat.mul_div_cancel_left b (by norm_num : 0 < 2)]
    ring

theorem validCoord_halved {cs ds : List Nat} (hv : ValidCoord cs ds)
    (h : ∀ d ∈ ds, 2 ∣ d) : ValidCoord (cs.map (· / 2)) (ds.map (· / 2)) := by
  induction hv with
  | nil => exact validCoord_nil
  | @cons c d cs' ds' hcd htl ih =>
    obtain ⟨b, rfl⟩ := h d (by simp)
    simp only [List.map_cons, Nat.mul_div_cancel_left b (by norm_num : 0 < 2)]
    exact validCoord_cons (by omega) (ih (fun x hx => h x (by simp [hx])))

theorem and_shift_top (s N : Nat) (hN : 1 ≤ N) :
    (s &&& 2 ^ N) >>> (N - 1) = s / 2 ^ N % 2 * 2 := by
  rw [Nat.and_two_pow, Nat.shiftRight_eq_div_pow]
  have h1 : (s.testBit N).toNat = s / 2 ^ N % 2 := by
    rw [Nat.testBit_to_div_mod]
    rcases Nat.mod_two_eq_zero_or_one (s / 2 ^ N) with h | h <;> simp [h]
  have h2 : 2 ^ N = 2 ^ (N - 1) * 2 := by
    rw [← pow_succ]
    congr 1
    omega
  have h3 : (s.testBit N).toNat * 2 ^ N / 2 ^ (N - 1) = (s.testBit N).toNat * 2 := by
    conv_lhs => rw [h2]
    rw [show (s.testBit N).toNat * (2 ^ (N - 1) * 2)
        = (s.testBit N).toNat * 2 * 2 ^ (N - 1) by ring]
    exact Nat.mul_div_cancel _ (Nat.two_pow_pos _)
  rw [h3, h1]

theorem head_reconstruct_xor {h0 b0 q : Nat} (hb : b0 ≤ 1) (hq : q ≤ 1) :
    4 * h0 ^^^ b0 ^^^ q * 2 = 4 * h0 + 2 * q + b0 := by
  rw [Nat.xor_assoc]
  have h1 : b0 ^^^ q * 2 = 2 * q + b0 := by
    rw [Nat.xor_comm, show q * 2 = 2 * q by ring, two_mul_xor_bit _ _ hb]
  rw [h1]
  have h2 : 2 ^ 2 * h0 ^^^ (2 * q + b0) = 2 ^ 2 * h0 + (2 * q + b0) :=
    two_pow_mul_xor h0 (by omega)
  have h3 : (4 : Nat) * h0 = 2 ^ 2 * h0 := by norm_num
  rw [h3, h2]
  omega

theorem cb32_rt_coord (a : Nat) {ds : List Nat} (hds : ∀ d ∈ ds, 2 ∣ d)
    (c0 : Nat) {cs : List Nat} (node : Nat) (h0 : c0 < 4 * a)
    (hcs : ValidCoord cs ds) :
    cb32_siteCoords (4 * a :: ds) node (cb32_linearSiteIndex (4 * a :: ds) (c0 :: cs))
      = c0 :: cs := by
  have ha : 0 < a := by omega
  have hlen : cs.length = ds.length := hcs.length_eq
  have hvol : 4 * a * ds.prod = 2 ^ (ds.length + 1 + 1) * (a * (ds.map (· / 2)).prod) := by
    rw [prod_even_split hds]
    rw [show ds.length + 1 + 1 = ds.length + 2 by omega, pow_add]
    norm_num
    ring
  have hvolcb : (4 * a * ds.prod) >>> (ds.length + 1 + 1)
      = a * (ds.map (· / 2)).prod := by
    rw [Nat.shiftRight_eq_div_pow, hvol]
    exact Nat.mul_div_cancel_left _ (Nat.two_pow_pos _)
  have hvalid : ValidCoord (c0 / 4 :: cs.map (· / 2)) (a :: ds.map (· / 2)) :=
    validCoord_cons (by omega) (validCoord_halved hcs hds)
  have hLlt : local_site (c0 / 4 :: cs.map (· / 2)) (a :: ds.map (· / 2))
      < a * (ds.map (· / 2)).prod := by
    have h := local_site_lt_prod hvalid
    simpa [List.prod_cons] using h
  have hpos : 0 < a * (ds.map (· / 2)).prod := by omega
  have hlowlt : sublBits (c0 :: cs) < 2 ^ (ds.length + 1) := by
    have h := sublBits_lt (c0 :: cs)
    simpa [hlen] using h
  have hplt : (c0 / 2 + (cs.map (· / 2)).sum) % 2 ≤ 1 := by omega
  have h44 : 4 * a / 4 = a := Nat.mul_div_cancel_left a (by norm_num)
  have hidx : cb32_linearSiteIndex (4 * a :: ds) (c0 :: cs)
      = local_site (c0 / 4 :: cs.map (· / 2)) (a :: ds.map (· / 2))
        + (sublBits (c0 :: cs)
            + (c0 / 2 + (cs.map (· / 2)).sum) % 2 * 2 ^ (ds.length + 1))
          * (a * (ds.map (· / 2)).prod) := by
    simp only [cb32_linearSiteIndex, List.length_cons, List.prod_cons, List.headI_cons,
      List.tail_cons, List.map_cons, List.sum_cons, shiftr_one_eq, shiftr_two_eq,
      Nat.and_one_is_mod, Nat.shiftLeft_eq, hvolcb, h44]
  rw [hidx]
  have hdiv : (local_site (c0 / 4 :: cs.map (· / 2)) (a :: ds.map (· / 2))
      + (sublBits (c0 :: cs)
          + (c0 / 2 + (cs.map (· / 2)).sum) % 2 * 2 ^ (ds.length + 1))
        * (a * (ds.map (· / 2)).prod)) / (a * (ds.map (· / 2)).prod)
      = sublBits (c0 :: cs)
        + (c0 / 2 + (cs.map (· / 2)).sum) % 2 * 2 ^ (ds.length + 1) := by
    rw [Nat.mul_comm _ (a * (ds.map (· / 2)).prod), Nat.add_mul_div_left _ _ hpos,
      Nat.div_eq_of_lt hLlt, Nat.zero_add]
  have hmod : (local_site (c0 / 4 :: cs.map (· / 2)) (a :: ds.map (· / 2))
      + (sublBits (c0 :: cs)
          + (c0 / 2 + (cs.map (· / 2)).sum) % 2 * 2 ^ (ds.length + 1))
        * (a * (ds.map (· / 2)).prod)) % (a * (ds.map (· / 2)).prod)
      = local_site (c0 / 4 :: cs.map (· / 2)) (a :: ds.map (· / 2)) := by
    rw [Nat.add_mul_mod_self_right, Nat.mod_eq_of_lt hLlt]
  have hcrt : crtesn (local_site (c0 / 4 :: cs.map (· / 2)) (a :: ds.map (· / 2)))
      (a :: ds.map (· / 2)) = c0 / 4 :: cs.map (· / 2) :=
    crtesn_local_site hvalid
  have hsubl2 : (sublBits (c0 :: cs)
        + (c0 / 2 + (cs.map (· / 2)).sum) % 2 * 2 ^ (ds.length + 1))
      ^^^ ((cs.map (· / 2)).sum % 2) <<< (ds.length + 1)
      = sublBits (c0 :: cs) + c0 / 2 % 2 * 2 ^ (ds.length + 1) := by
    rw [Nat.shiftLeft_eq, xor_high_bit hlowlt hplt (by omega)]
    congr 2
    omega
  have hq1 : c0 / 2 % 2 ≤ 1 := by omega
  have hbit0 : (sublBits (c0 :: cs) + c0 / 2 % 2 * 2 ^ (ds.length + 1)) % 2
      = c0 % 2 := by
    have h1 := add_high_div_mod hlowlt hq1 (show 0 < ds.length + 1 by omega)
    have h2 := sublBits_testbit (c0 :: cs) 0 (by simp)
    simp only [pow_zero, Nat.div_one] at h1 h2
    rw [h1, h2, List.getD_cons_zero]
  have htopbit : (sublBits (c0 :: cs) + c0 / 2 % 2 * 2 ^ (ds.length + 1))
      / 2 ^ (ds.length + 1) % 2 = c0 / 2 % 2 := by
    rw [add_high_top hlowlt]
    omega
  have htail : xorLowBits (cs.map (fun x => 2 * (x / 2)))
      (sublBits (c0 :: cs) + c0 / 2 % 2 * 2 ^ (ds.length + 1)) 1 = cs := by
    apply xorLowBits_reconstruct
    intro j hj
    have hlt : 1 + j < ds.length + 1 := by omega
    rw [add_high_div_mod hlowlt hq1 hlt]
    have h2 := sublBits_testbit (c0 :: cs) (1 + j) (by simp; omega)
    rw [h2, show 1 + j = j + 1 by omega, List.getD_cons_succ]
  have hmap2 : (cs.map (· / 2)).map (fun x => 2 * x) = cs.map (fun x => 2 * (x / 2)) := by
    rw [List.map_map]
    rfl
  have hsc : cb32_siteCoords (4 * a :: ds) node
      (local_site (c0 / 4 :: cs.map (· / 2)) (a :: ds.map (· / 2))
        + (sublBits (c0 :: cs)
            + (c0 / 2 + (cs.map (· / 2)).sum) % 2 * 2 ^ (ds.length + 1))
          * (a * (ds.map (· / 2)).prod))
      = ((4 * (c0 / 4) ^^^ c0 % 2) ^^^ c0 / 2 % 2 * 2) :: cs := by
    simp only [cb32_siteCoords, List.length_cons, List.prod_cons, List.headI_cons,
      List.tail_cons, List.map_cons, List.sum_cons, shiftr_one_eq, shiftr_two_eq,
      shiftl_one_eq, shiftl_two_eq, Nat.and_one_is_mod, Nat.one_mul, h44,
      hvolcb, hdiv, hmod, hcrt, hsubl2, xorLowBits, Nat.shiftRight_zero, Nat.zero_add,
      hmap2, htail, hbit0]
    rw [show (1 : Nat) <<< (ds.length + 1) = 2 ^ (ds.length + 1) by
        rw [Nat.shiftLeft_eq, Nat.one_mul],
      and_shift_top _ _ (show 1 ≤ ds.length + 1 by omega), htopbit]
  rw [hsc]
  have hhead : (4 * (c0 / 4) ^^^ c0 % 2) ^^^ c0 / 2 % 2 * 2 = c0 := by
    rw [head_reconstruct_xor (by omega) hq1]
    omega
  rw [hhead]

theorem cb32_rt_index (a : Nat) {ds : List Nat} (hds : ∀ d ∈ ds, 2 ∣ d) (node : Nat)
    {i : Nat} (hi : i < (4 * a :: ds).prod) :
    cb32_linearSiteIndex (4 * a :: ds) (cb32_siteCoords (4 * a :: ds) node i) = i := by
  have hvol : 4 * a * ds.prod
      = 2 ^ (ds.length + 1 + 1) * (a * (ds.map (· / 2)).prod) := by
    rw [prod_even_split hds]
    rw [show ds.length + 1 + 1 = ds.length + 2 by omega, pow_add]
    norm_num
    ring
  have hvolcb : (4 * a * ds.prod) >>> (ds.length + 1 + 1)
      = a * (ds.map (· / 2)).prod := by
    rw [Nat.shiftRight_eq_div_pow, hvol]
    exact Nat.mul_div_cancel_left _ (Nat.two_pow_pos _)
  have h44 : 4 * a / 4 = a := Nat.mul_div_cancel_left a (by norm_num)
  have hi2 : i < 2 ^ (ds.length + 1 + 1) * (a * (ds.map (· / 2)).prod) := by
    rw [← hvol]
    simpa [List.prod_cons] using hi
  have hpos : 0 < a * (ds.map (· / 2)).prod := by
    rcases Nat.eq_zero_or_pos (a * (ds.map (· / 2)).prod) with h | h
    · rw [h, Nat.mul_zero] at hi2
      omega
    · exact h
  have hsubl_lt : i / (a * (ds.map (· / 2)).prod) < 2 ^ (ds.length + 1 + 1) := by
    rw [Nat.div_lt_iff_lt_mul hpos]
    exact hi2
  have hL : i % (a * (ds.map (· / 2)).prod) < a * (ds.map (· / 2)).prod :=
    Nat.mod_lt _ hpos
  have hLprod : i % (a * (ds.map (· / 2)).prod) < (a :: ds.map (· / 2)).prod := by
    simpa [List.prod_cons] using hL
  obtain ⟨h0, hs, hcrtesn, hh0, hhs⟩ : ∃ h0 hs,
      crtesn (i % (a * (ds.map (· / 2)).prod)) (a :: ds.map (· / 2)) = h0 :: hs
        ∧ h0 < a ∧ ValidCoord hs (ds.map (· / 2)) := by
    have hval := crtesn_validCoord hLprod
    rcases hcrt2 : crtesn (i % (a * (ds.map (· / 2)).prod)) (a :: ds.map (· / 2)) with
      _ | ⟨x, xs⟩
    · rw [hcrt2] at hval
      rcases hval with _ | _
    · rw [hcrt2] at hval
      rcases hval with _ | ⟨hx, hxs⟩
      exact ⟨x, xs, rfl, hx, hxs⟩
  have hls : local_site (h0 :: hs) (a :: ds.map (· / 2))
      = i % (a * (ds.map (· / 2)).prod) := by
    rw [← hcrtesn]
    exact local_site_crtesn hLprod
  have hslen : hs.length = ds.length := by
    have h := crtesn_length (i % (a * (ds.map (· / 2)).prod)) (a :: ds.map (· / 2))
    rw [hcrtesn] at h
    simpa using h
  obtain ⟨low, p, hdecomp, hlow_lt, hp1⟩ : ∃ low p,
      i / (a * (ds.map (· / 2)).prod) = low + p * 2 ^ (ds.length + 1)
        ∧ low < 2 ^ (ds.length + 1) ∧ p ≤ 1 := by
    refine ⟨i / (a * (ds.map (· / 2)).prod) % 2 ^ (ds.length + 1),
      i / (a * (ds.map (· / 2)).prod) / 2 ^ (ds.length + 1),
      (Nat.mod_add_div' _ _).symm, Nat.mod_lt _ (Nat.two_pow_pos _), ?_⟩
    have h2 : i / (a * (ds.map (· / 2)).prod) / 2 ^ (ds.length + 1) < 2 := by
      rw [Nat.div_lt_iff_lt_mul (Nat.two_pow_pos _)]
      have h3 : 2 ^ (ds.length + 1 + 1) = 2 * 2 ^ (ds.length + 1) := by
        rw [pow_succ]
        ring
      omega
    omega
  have hq1 : (p + hs.sum % 2) % 2 ≤ 1 := by omega
  have hxor2 : i / (a * (ds.map (· / 2)).prod) ^^^ (hs.sum % 2) <<< (ds.length + 1)
      = low + (p + hs.sum % 2) % 2 * 2 ^ (ds.length + 1) := by
    rw [hdecomp, Nat.shiftLeft_eq, xor_high_bit hlow_lt hp1 (by omega)]
  have hb0 : (low + (p + hs.sum % 2) % 2 * 2 ^ (ds.length + 1)) % 2 = low % 2 := by
    have h := add_high_div_mod hlow_lt hq1 (show 0 < ds.length + 1 by omega)
    simpa using h
  have htop : (low + (p + hs.sum % 2) % 2 * 2 ^ (ds.length + 1)) / 2 ^ (ds.length + 1)
      % 2 = (p + hs.sum % 2) % 2 := by
    rw [add_high_top hlow_lt]
    omega
  have hsc : cb32_siteCoords (4 * a :: ds) node i
      = ((4 * h0 ^^^ low % 2) ^^^ (p + hs.sum % 2) % 2 * 2)
        :: xorLowBits (hs.map (fun x => 2 * x))
            (low + (p + hs.sum % 2) % 2 * 2 ^ (ds.length + 1)) 1 := by
    simp only [cb32_siteCoords, List.length_cons, List.prod_cons, hvolcb, h44,
      shiftr_one_eq, shiftr_two_eq, hcrtesn, List.tail_cons, List.headI_cons,
      Nat.and_one_is_mod, hxor2, shiftl_one_eq, shiftl_two_eq, xorLowBits,
      Nat.shiftRight_zero, Nat.zero_add, hb0]
    rw [show (1 : Nat) <<< (ds.length + 1) = 2 ^ (ds.length + 1) by
        rw [Nat.shiftLeft_eq, Nat.one_mul],
      and_shift_top _ _ (show 1 ≤ ds.length + 1 by omega), htop]
  have hhead : (4 * h0 ^^^ low % 2) ^^^ (p + hs.sum % 2) % 2 * 2
      = 4 * h0 + 2 * ((p + hs.sum % 2) % 2) + low % 2 :=
    head_reconstruct_xor (by omega) hq1
  rw [hsc, hhead]
  have h4h : (4 * h0 + 2 * ((p + hs.sum % 2) % 2) + low % 2) / 4 = h0 := by omega
  have h2h : (4 * h0 + 2 * ((p + hs.sum % 2) % 2) + low % 2) / 2
      = 2 * h0 + (p + hs.sum % 2) % 2 := by omega
  have hmodh : (4 * h0 + 2 * ((p + hs.sum % 2) % 2) + low % 2) % 2 = low % 2 := by
    omega
  have hsb : 2 * ((low + (p + hs.sum % 2) % 2 * 2 ^ (ds.length + 1)) / 2
      % 2 ^ hs.length) + low % 2 = low := by
    rw [hslen]
    have h1 := mod_two_pow_succ (low + (p + hs.sum % 2) % 2 * 2 ^ (ds.length + 1))
      ds.length
    have h2 : (low + (p + hs.sum % 2) % 2 * 2 ^ (ds.length + 1)) % 2 ^ (ds.length + 1)
        = low := by
      rw [Nat.add_mul_mod_self_right, Nat.mod_eq_of_lt hlow_lt]
    omega
  have hpf : (2 * h0 + (p + hs.sum % 2) % 2 + hs.sum) % 2 = p := by omega
  have hfinal : cb32_linearSiteIndex (4 * a :: ds)
      ((4 * h0 + 2 * ((p + hs.sum % 2) % 2) + low % 2)
        :: xorLowBits (hs.map (fun x => 2 * x))
            (low + (p + hs.sum % 2) % 2 * 2 ^ (ds.length + 1)) 1)
      = i % (a * (ds.map (· / 2)).prod)
        + (low + p * 2 ^ (ds.length + 1)) * (a * (ds.map (· / 2)).prod) := by
    simp only [cb32_linearSiteIndex, List.length_cons, List.prod_cons, hvolcb, h44,
      List.headI_cons, List.tail_cons, List.map_cons, List.sum_cons, shiftr_one_eq,
      shiftr_two_eq, Nat.and_one_is_mod, Nat.shiftLeft_eq, sublBits_cons,
      sublBits_xorLowBits, xorLowBits_div_two, h4h, h2h, hmodh, pow_one, hsb, hpf,
      hls]
  rw [hfinal, ← hdecomp, Nat.mod_add_div']

theorem map_sum_getD (f : Nat → Nat) (c : List Nat) :
    (c.map f).sum = ((List.range c.length).map (fun m => f (c.getD m 0))).sum := by
  induction c with
  | nil => rfl
  | cons x c ih =>
    rw [List.map_cons, List.sum_cons, ih, List.length_cons,
      List.range_succ_eq_map, List.map_cons, List.map_map, List.sum_cons]
    simp only [Function.comp_def, List.getD_cons_zero, List.getD_cons_succ]

theorem sublBits_eq_sum (c : List Nat) :
    sublBits c = ((List.range c.length).map (fun m => c.getD m 0 % 2 * 2 ^ m)).sum := by
  induction c with
  | nil => rfl
  | cons x c ih =>
    rw [sublBits_cons, ih, List.length_cons, List.range_succ_eq_map, List.map_cons,
      List.map_map, List.sum_cons]
    simp only [Function.comp_def, List.getD_cons_zero, List.getD_cons_succ, pow_zero,
      Nat.mul_one, pow_succ]
    rw [show (fun m => c.getD m 0 % 2 * (2 ^ m * 2))
        = (fun m => 2 * (c.getD m 0 % 2 * 2 ^ m)) from by
      funext m
      ring]
    rw [List.sum_map_mul_left]
    omega

theorem subl_loop_eq_layout (c : List Nat) :
    sublBits c + (c.map (· / 2)).sum % 2 * 2 ^ c.length
      = cb32_layout_sublattice c.length c := by
  rw [cb32_layout_sublattice, ← sublBits_eq_sum, ← map_sum_getD (fun x => x / 2) c]

theorem cb3d_time_inc_general (nrow : List Nat) (c0 u : Nat) (ms : List Nat) :
    cb3d_linearSiteIndex nrow (c0 :: (ms ++ [u + 1]))
      = cb3d_linearSiteIndex nrow (c0 :: (ms ++ [u])) + 1 := by
  have h1 : ∀ w : Nat, halveHead (c0 :: (ms ++ [w])) = (c0 / 2 :: ms) ++ [w] :=
    fun w => rfl
  have h2 : ∀ w : Nat, (c0 :: (ms ++ [w])).dropLast = c0 :: ms := fun w => by
    rw [show c0 :: (ms ++ [w]) = (c0 :: ms) ++ [w] from rfl, List.dropLast_concat]
  simp only [cb3d_linearSiteIndex, h1, h2, local_site_cb3d, List.getLastD_concat,
    List.dropLast_concat]
  omega

theorem cb3d_parity_from_middle (d0 : Nat) {rest : List Nat} (hrest : rest ≠ [])
    (node i : Nat) :
    (cb3d_siteCoords (d0 :: rest) node i).headI % 2
      = (i / ((d0 :: rest).prod / 2)
          + ((cb3d_siteCoords (d0 :: rest) node i).tail.dropLast).sum) % 2 := by
  obtain ⟨es, t, rfl⟩ : ∃ es t, rest = es ++ [t] :=
    ⟨rest.dropLast, rest.getLast hrest, (List.dropLast_append_getLast hrest).symm⟩
  have hcoord : crtesn_cb3d (i % ((d0 :: (es ++ [t])).prod / 2))
      (halveHead (d0 :: (es ++ [t])))
      = (i % ((d0 :: (es ++ [t])).prod / 2) / t % (d0 / 2))
        :: (crtesn (i % ((d0 :: (es ++ [t])).prod / 2) / t / (d0 / 2)) es
            ++ [i % ((d0 :: (es ++ [t])).prod / 2) % t]) := by
    have hh : halveHead (d0 :: (es ++ [t])) = (d0 / 2 :: es) ++ [t] := rfl
    rw [hh, crtesn_cb3d_concat]
    rfl
  simp only [cb3d_siteCoords, hcoord, List.tail_cons, List.dropLast_concat,
    List.headI_cons, Nat.and_one_is_mod]
  generalize i / ((d0 :: (es ++ [t])).prod / 2) = f
  omega

theorem replaceFirst_length {KS V : Type} [DecidableEq KS]
    (l : List (KS × V)) (k : KS) (v : V) :
    (replaceFirst l k v).length = l.length := by
  induction l with
  | nil => rfl
  | cons p l ih =>
    by_cases h : p.1 = k <;> simp [replaceFirst, h, ih]

theorem lookup_replaceFirst {KS V : Type} [DecidableEq KS]
    (l : List (KS × V)) (k : KS) (v : V) (h : (l.lookup k).isSome = true) :
    (replaceFirst l k v).lookup k = some v := by
  induction l with
  | nil => simp [List.lookup] at h
  | cons p l ih =>
    by_cases hp : p.1 = k
    · simp [replaceFirst, hp, List.lookup]
    · have hne : (k == p.1) = false := by
        simp
        exact fun he => hp he.symm
      simp only [replaceFirst, if_neg hp, List.lookup, hne] at h ⊢
      exact ih h

theorem lookup_isSome_iff {KS V : Type} [DecidableEq KS]
    (l : List (KS × V)) (k : KS) :
    (l.lookup k).isSome = true ↔ ∃ p ∈ l, p.1 = k := by
  induction l with
  | nil => simp [List.lookup]
  | cons p l ih =>
    by_cases hp : k = p.1
    · simp [List.lookup, hp]
    · have hne : (k == p.1) = false := by simpa using hp
      simp only [List.lookup, hne, List.mem_cons]
      rw [ih]
      constructor
      · rintro ⟨q, hq, hqk⟩
        exact ⟨q, Or.inr hq, hqk⟩
      · rintro ⟨q, hq | hq, hqk⟩
        · exact absurd (hq ▸ hqk).symm hp
        · exact ⟨q, hq, hqk⟩

/-- C1: Round-trip bijection for every codec variant: for every lattice-size
vector satisfying the variant's divisibility constraints (all extents even
for the Checkerboard2 and Checkerboard3DTimeFastest variants, with at least
one dimension, respectively two for the 3D variant whose parity excludes
the last axis; extent 0 divisible by 4 and every other extent divisible by 2
for the Checkerboard32 variant; no constraint for Lexicographic), every
linear index in `[0, vol)` round-trips through `siteCoords` then
`linearSiteIndex`, and every valid coordinate round-trips through
`linearSiteIndex` then `siteCoords`. -/
theorem roundtrip_bijection_all_variants (nrow : List Nat) (node : Nat) :
    ((∀ i, i < nrow.prod →
        lex_linearSiteIndex nrow (lex_siteCoords nrow node i) = i)
      ∧ (∀ c, ValidCoord c nrow →
        lex_siteCoords nrow node (lex_linearSiteIndex nrow c) = c))
  ∧ (0 < nrow.length → (∀ d ∈ nrow, 2 ∣ d) →
      (∀ i, i < nrow.prod →
        cb2_linearSiteIndex nrow (cb2_siteCoords nrow node i) = i)
      ∧ (∀ c, ValidCoord c nrow →
        cb2_siteCoords nrow node (cb2_linearSiteIndex nrow c) = c))
  ∧ (2 ≤ nrow.length → (∀ d ∈ nrow, 2 ∣ d) →
      (∀ i, i < nrow.prod →
        cb3d_linearSiteIndex nrow (cb3d_siteCoords nrow node i) = i)
      ∧ (∀ c, ValidCoord c nrow →
        cb3d_siteCoords nrow node (cb3d_linearSiteIndex nrow c) = c))
  ∧ (0 < nrow.length → 4 ∣ nrow.headI → (∀ d ∈ nrow.tail, 2 ∣ d) →
      (∀ i, i < nrow.prod →
        cb32_linearSiteIndex nrow (cb32_siteCoords nrow node i) = i)
      ∧ (∀ c, ValidCoord c nrow →
        cb32_siteCoords nrow node (cb32_linearSiteIndex nrow c) = c)) := by
  refine ⟨⟨fun i hi => lex_rt_index node hi, fun c hc => lex_rt_coord node hc⟩,
    ?_, ?_, ?_⟩
  · intro hlen heven
    cases nrow with
    | nil => simp at hlen
    | cons d0 ds =>
      obtain ⟨a, rfl⟩ : ∃ a, d0 = 2 * a := heven d0 (by simp)
      refine ⟨fun i hi => cb2_rt_index a ds node hi, fun c hc => ?_⟩
      rcases hc with _ | ⟨h1, h2⟩
      exact cb2_rt_coord a _ ds _ node h1 h2
  · intro hlen heven
    cases nrow with
    | nil => simp at hlen
    | cons d0 rest =>
      have hrest : rest ≠ [] := by
        intro h
        subst h
        simp at hlen
      obtain ⟨es, t, rfl⟩ : ∃ es t, rest = es ++ [t] :=
        ⟨rest.dropLast, rest.getLast hrest, (List.dropLast_append_getLast hrest).symm⟩
      obtain ⟨a, rfl⟩ : ∃ a, d0 = 2 * a := heven d0 (by simp)
      constructor
      · intro i hi
        exact cb3d_rt_index a es t node hi
      · intro c hc
        rcases hc with _ | ⟨h1, h2⟩
        obtain ⟨mid, u, rfl, hmid, hu⟩ := validCoord_concat_split h2
        exact cb3d_rt_coord a _ es t u node h1 hmid hu
  · intro hlen h4 heven
    cases nrow with
    | nil => simp at hlen
    | cons d0 ds =>
      obtain ⟨a, rfl⟩ : ∃ a, d0 = 4 * a := by
        simpa using h4
      simp only [List.tail_cons] at heven
      refine ⟨fun i hi => cb32_rt_index a heven node hi, fun c hc => ?_⟩
      rcases hc with _ | ⟨h1, h2⟩
      exact cb32_rt_coord a heven _ node h1 h2

/-- C1 witness: the round-trip identities instantiated on the 4-dimensional
lattice `[4,4,4,4]`, which meets every variant's divisibility constraints. -/
theorem roundtrip_bijection_all_variants_witness :
    lex_linearSiteIndex [4, 4, 4, 4] (lex_siteCoords [4, 4, 4, 4] 0 77) = 77
  ∧ lex_siteCoords [4, 4, 4, 4] 0 (lex_linearSiteIndex [4, 4, 4, 4] [1, 2, 3, 0])
      = [1, 2, 3, 0]
  ∧ cb2_linearSiteIndex [4, 4, 4, 4] (cb2_siteCoords [4, 4, 4, 4] 0 200) = 200
  ∧ cb2_siteCoords [4, 4, 4, 4] 0 (cb2_linearSiteIndex [4, 4, 4, 4] [1, 2, 3, 0])
      = [1, 2, 3, 0]
  ∧ cb3d_linearSiteIndex [4, 4, 4, 4] (cb3d_siteCoords [4, 4, 4, 4] 0 133) = 133
  ∧ cb3d_siteCoords [4, 4, 4, 4] 0 (cb3d_linearSiteIndex [4, 4, 4, 4] [1, 2, 3, 0])
      = [1, 2, 3, 0]
  ∧ cb32_linearSiteIndex [4, 4, 4, 4] (cb32_siteCoords [4, 4, 4, 4] 0 255) = 255
  ∧ cb32_siteCoords [4, 4, 4, 4] 0 (cb32_linearSiteIndex [4, 4, 4, 4] [1, 2, 3, 0])
      = [1, 2, 3, 0] := by
  have hval : ValidCoord [1, 2, 3, 0] [4, 4, 4, 4] :=
    validCoord_cons (by norm_num) (validCoord_cons (by norm_num)
      (validCoord_cons (by norm_num) (validCoord_cons (by norm_num) validCoord_nil)))
  have h := roundtrip_bijection_all_variants [4, 4, 4, 4] 0
  have heven : ∀ d ∈ [4, 4, 4, 4], 2 ∣ d := by decide
  refine ⟨h.1.1 77 (by norm_num), ?_, (h.2.1 (by norm_num) heven).1 200 (by norm_num),
    (h.2.1 (by norm_num) heven).2 _ hval,
    (h.2.2.1 (by norm_num) heven).1 133 (by norm_num),
    (h.2.2.1 (by norm_num) heven).2 _ hval,
    (h.2.2.2 (by norm_num) (by norm_num) (by decide)).1 255 (by norm_num),
    (h.2.2.2 (by norm_num) (by norm_num) (by decide)).2 _ hval⟩
  exact h.1.2 _ hval

/-- C6: Lexicographic ordering law: for the Lexicographic codec,
incrementing coordinate component 0 by 1 without wraparound increments the
index by exactly 1; concretely with `dims = [2,3]`,
`linearSiteIndex (1,2) = 5` and `siteCoords 0 5 = (1,2)`. -/
theorem lex_ordering_law :
    (∀ (nrow : List Nat) (c0 : Nat) (cs : List Nat),
        ValidCoord (c0 :: cs) nrow → c0 + 1 < nrow.headI →
        lex_linearSiteIndex nrow ((c0 + 1) :: cs)
          = lex_linearSiteIndex nrow (c0 :: cs) + 1)
  ∧ lex_linearSiteIndex [2, 3] [1, 2] = 5
  ∧ lex_siteCoords [2, 3] 0 5 = [1, 2] := by
  refine ⟨?_, by decide, by decide⟩
  intro nrow c0 cs hv _hlt
  rcases hv with _ | ⟨_, _⟩
  simp only [lex_linearSiteIndex, local_site]
  omega

/-- C6 witness: the ordering law applied on `dims = [2,3]` at the
coordinate `(0,2)`. -/
theorem lex_ordering_law_witness :
    lex_linearSiteIndex [2, 3] [0 + 1, 2] = lex_linearSiteIndex [2, 3] [0, 2] + 1 := by
  have hval : ValidCoord [0, 2] [2, 3] :=
    validCoord_cons (by norm_num) (validCoord_cons (by norm_num) validCoord_nil)
  exact lex_ordering_law.1 [2, 3] 0 [2] hval (by norm_num)

/-- C8: the scalar implementation ignores any caller-supplied I/O grid:
after `setIONodeGrid g` the stored grid is the all-ones vector of length
`Nd` regardless of `g`, `isIOGridDefined` is always true and
`numIONodeGrid` is always 1. -/
theorem io_grid_always_ones :
    (∀ (g : List Nat) (nd : Nat) (st : LocalLayout),
        getIONodeGrid (setIONodeGrid g nd st) = List.replicate nd 1)
  ∧ isIOGridDefined = true
  ∧ numIONodeGrid = 1 :=
  ⟨fun _ _ _ => rfl, rfl, rfl⟩

/-- C2: `Layout::create` fails fatally when QDP is not initialized or when
the stored lattice size does not have `Nd` components; otherwise it runs the
exhaustive self-check `linearSiteIndex (siteCoords (nodeNumber, i)) = i` over
every `i` in `[0, vol)`: a successful return implies the check held at every
index, and conversely the checks passing is all that is needed beyond the
two configuration guards for `create` to complete normally. -/
theorem create_fatal_guards_and_selfcheck :
    (∀ (v : LayoutVariant) (nd : Nat) (st : LocalLayout),
        create v false nd st = .error "QDP is not initialized")
  ∧ (∀ (v : LayoutVariant) (nd : Nat) (st : LocalLayout), st.nrow.length ≠ nd →
        create v true nd st
          = .error "dimension of lattice size not the same as the default")
  ∧ (∀ (v : LayoutVariant) (nd : Nat) (st st' : LocalLayout),
        create v true nd st = .ok st' →
        ∀ i, i < st.nrow.prod →
          layout_linearSiteIndex v st.nrow
            (layout_siteCoords v st.nrow nodeNumber i) = i)
  ∧ (∀ (v : LayoutVariant) (nd : Nat) (st : LocalLayout), st.nrow.length = nd →
        (∀ i, i < st.nrow.prod →
          layout_linearSiteIndex v st.nrow
            (layout_siteCoords v st.nrow nodeNumber i) = i) →
        ∃ st', create v true nd st = .ok st') := by
  refine ⟨fun v nd st => by simp [create], fun v nd st h => by simp [create, h],
    ?_, ?_⟩
  · intro v nd st st' h i hi
    rw [create, if_neg (by simp)] at h
    by_cases hlen : st.nrow.length ≠ nd
    · rw [if_pos hlen] at h
      cases h
    · rw [if_neg hlen] at h
      simp only [] at h
      rcases hall : (List.range st.nrow.prod).all
          (fun i => layout_linearSiteIndex v st.nrow
            (layout_siteCoords v st.nrow nodeNumber i) == i) with _ | _
      · rw [hall] at h
        simp at h
      · have h4 := List.all_eq_true.1 hall i (List.mem_range.2 hi)
        simpa using h4
  · intro v nd st hlen hall
    have hcond : ((List.range st.nrow.prod).all
        (fun i => layout_linearSiteIndex v st.nrow
          (layout_siteCoords v st.nrow nodeNumber i) == i)) = true := by
      rw [List.all_eq_true]
      intro x hx
      rw [List.mem_range] at hx
      simpa using hall x hx
    refine ⟨setIONodeGridDefaults nd
      { st with
        vol := st.nrow.prod
        subgrid_vol := st.nrow.prod
        logical_coord := List.replicate nd 0
        logical_size := List.replicate nd 1 }, ?_⟩
    rw [create, if_neg (by simp), if_neg (by simp [hlen])]
    simp only [hcond, if_true]

/-- C2 witness: the three fatal/normal paths of `create` exercised on the
lexicographic layout with lattice size `[2,3]`. -/
theorem create_fatal_guards_and_selfcheck_witness :
    create .lexico false 2 (⟨0, [2, 3], 0, [], [], []⟩ : LocalLayout)
      = .error "QDP is not initialized"
  ∧ create .lexico true 3 (⟨0, [2, 3], 0, [], [], []⟩ : LocalLayout)
      = .error "dimension of lattice size not the same as the default"
  ∧ layout_linearSiteIndex .lexico [2, 3]
      (layout_siteCoords .lexico [2, 3] nodeNumber 5) = 5
  ∧ ∃ st', create .lexico true 2 (⟨0, [2, 3], 0, [], [], []⟩ : LocalLayout)
      = .ok st' := by
  have h := create_fatal_guards_and_selfcheck
  refine ⟨h.1 .lexico 2 _, h.2.1 .lexico 3 _ (by decide), ?_, ?_⟩
  · exact h.2.2.1 .lexico 2 (⟨0, [2, 3], 0, [], [], []⟩ : LocalLayout)
      (⟨6, [2, 3], 6, [0, 0], [1, 1], [1, 1]⟩ : LocalLayout) rfl 5
      (by norm_num)
  · exact h.2.2.2 .lexico 2 _ (by decide) (by decide)

/-- C7: after a successful `Layout::create`, the stored volume is the
product of the lattice extents, the subgrid volume equals the volume, the
logical node coordinate is the length-`Nd` zero vector and the logical
machine size is the length-`Nd` all-ones vector. -/
theorem create_success_sets_geometry :
    ∀ (v : LayoutVariant) (nd : Nat) (st st' : LocalLayout),
      create v true nd st = .ok st' →
      st'.vol = st.nrow.prod
        ∧ st'.subgrid_vol = st'.vol
        ∧ st'.logical_coord = List.replicate nd 0
        ∧ st'.logical_size = List.replicate nd 1 := by
  intro v nd st st' h
  rw [create, if_neg (by simp)] at h
  by_cases hlen : st.nrow.length ≠ nd
  · rw [if_pos hlen] at h
    cases h
  · rw [if_neg hlen] at h
    simp only [] at h
    rcases hall : (List.range st.nrow.prod).all
        (fun i => layout_linearSiteIndex v st.nrow
          (layout_siteCoords v st.nrow nodeNumber i) == i) with _ | _
    · rw [hall] at h
      simp at h
    · rw [hall] at h
      simp only [if_true, Except.ok.injEq] at h
      subst h
      simp [setIONodeGridDefaults]

/-- C7 witness: the geometry fields produced by a successful `create` on the
lexicographic layout with lattice size `[2,3]`. -/
theorem create_success_sets_geometry_witness :
    (⟨6, [2, 3], 6, [0, 0], [1, 1], [1, 1]⟩ : LocalLayout).vol
        = ([2, 3] : List Nat).prod
      ∧ (⟨6, [2, 3], 6, [0, 0], [1, 1], [1, 1]⟩ : LocalLayout).subgrid_vol
        = (⟨6, [2, 3], 6, [0, 0], [1, 1], [1, 1]⟩ : LocalLayout).vol
      ∧ (⟨6, [2, 3], 6, [0, 0], [1, 1], [1, 1]⟩ : LocalLayout).logical_coord
        = List.replicate 2 0
      ∧ (⟨6, [2, 3], 6, [0, 0], [1, 1], [1, 1]⟩ : LocalLayout).logical_size
        = List.replicate 2 1 :=
  create_success_sets_geometry .lexico 2 (⟨0, [2, 3], 0, [], [], []⟩ : LocalLayout)
    _ rfl

/-- C3: the Checkerboard32 forward encoding follows the documented bit
layout: for every coordinate valid for a grid whose extent 0 is divisible by
4 and whose other extents are divisible by 2, `linearSiteIndex` equals the
lexicographic index of the shrunk coordinate over the shrunk grid plus the
sublattice id (one low bit per dimension in ascending order, topped by the
hypercube parity bit) times `vol / 2^(Nd+1)`. -/
theorem cb32_forward_matches_layout :
    ∀ (nrow coord : List Nat), 0 < nrow.length → ValidCoord coord nrow →
      4 ∣ nrow.headI → (∀ d ∈ nrow.tail, 2 ∣ d) →
      cb32_linearSiteIndex nrow coord = cb32_layout_index nrow coord := by
  intro nrow coord hlen hv _h4 _h2
  cases nrow with
  | nil => simp at hlen
  | cons d0 ds =>
    rcases hv with _ | ⟨h1, h2⟩
    rename_i c0 cs
    have hlen2 : cs.length = ds.length := h2.length_eq
    have hsubst := subl_loop_eq_layout (c0 :: cs)
    rw [List.length_cons, hlen2] at hsubst
    simp only [cb32_linearSiteIndex, cb32_layout_index, List.length_cons,
      List.headI_cons, List.tail_cons, shiftr_one_eq, shiftr_two_eq,
      Nat.and_one_is_mod, Nat.shiftLeft_eq, Nat.shiftRight_eq_div_pow, hsubst]

/-- C3 witness: the encoding identity instantiated on the grid `[4,2,2,2]`
at the coordinate `(3,1,0,1)`. -/
theorem cb32_forward_matches_layout_witness :
    cb32_linearSiteIndex [4, 2, 2, 2] [3, 1, 0, 1]
      = cb32_layout_index [4, 2, 2, 2] [3, 1, 0, 1] := by
  have hval : ValidCoord [3, 1, 0, 1] [4, 2, 2, 2] :=
    validCoord_cons (by norm_num) (validCoord_cons (by norm_num)
      (validCoord_cons (by norm_num) (validCoord_cons (by norm_num) validCoord_nil)))
  exact cb32_forward_matches_layout [4, 2, 2, 2] [3, 1, 0, 1] (by norm_num) hval
    (by norm_num) (by decide)

/-- C4: in the Checkerboard3DTimeFastest variant the last ("time")
dimension is the fastest-varying one: incrementing the last coordinate
component by one (without wraparound) increments the linear index by exactly
one; and the checkerboard parity reconstructed by `siteCoords` comes from
components `1 .. Nd-2` of the result plus the half-flag `i / (vol/2)`: the
low bit of the reconstructed component 0 is their sum mod 2. -/
theorem cb3d_time_fastest :
    (∀ (nrow cs : List Nat) (t : Nat),
        2 ≤ nrow.length → ValidCoord (cs ++ [t]) nrow →
        t + 1 < nrow.getLastD 0 →
        cb3d_linearSiteIndex nrow (cs ++ [t + 1])
          = cb3d_linearSiteIndex nrow (cs ++ [t]) + 1)
  ∧ (∀ (nrow : List Nat) (node i : Nat),
        2 ≤ nrow.length → i < nrow.prod →
        (cb3d_siteCoords nrow node i).headI % 2
          = (i / (nrow.prod / 2)
              + ((cb3d_siteCoords nrow node i).tail.dropLast).sum) % 2) := by
  constructor
  · intro nrow cs t hlen hv _ht
    have hlcs : cs ≠ [] := by
      intro h
      subst h
      have h1 := hv.length_eq
      simp at h1
      omega
    obtain ⟨c0, ms, rfl⟩ : ∃ c0 ms, cs = c0 :: ms := by
      cases cs with
      | nil => exact absurd rfl hlcs
      | cons c0 ms => exact ⟨c0, ms, rfl⟩
    exact cb3d_time_inc_general nrow c0 t ms
  · intro nrow node i hlen _hi
    cases nrow with
    | nil => simp at hlen
    | cons d0 rest =>
      have hrest : rest ≠ [] := by
        intro h
        subst h
        simp at hlen
      exact cb3d_parity_from_middle d0 hrest node i

/-- C4 witness: on the lattice `[4,4,4,4]`, incrementing the time component
of `(1,2,3,0)` increments the CB3D index by one, and the parity identity
holds at linear site 133. -/
theorem cb3d_time_fastest_witness :
    cb3d_linearSiteIndex [4, 4, 4, 4] [1, 2, 3, 0 + 1]
      = cb3d_linearSiteIndex [4, 4, 4, 4] [1, 2, 3, 0] + 1
  ∧ (cb3d_siteCoords [4, 4, 4, 4] 0 133).headI % 2
      = (133 / (([4, 4, 4, 4] : List Nat).prod / 2)
          + ((cb3d_siteCoords [4, 4, 4, 4] 0 133).tail.dropLast).sum) % 2 := by
  have hval : ValidCoord [1, 2, 3, 0] [4, 4, 4, 4] :=
    validCoord_cons (by norm_num) (validCoord_cons (by norm_num)
      (validCoord_cons (by norm_num) (validCoord_cons (by norm_num) validCoord_nil)))
  exact ⟨cb3d_time_fastest.1 [4, 4, 4, 4] [1, 2, 3] 0 (by norm_num) hval
      (by norm_num),
    cb3d_time_fastest.2 [4, 4, 4, 4] 0 133 (by norm_num) (by norm_num)⟩

/-- C5: Checkerboard2 color blocks: on an all-even grid every coordinate of
even component sum maps into the lower half `[0, vol/2)` of the index range
and every coordinate of odd component sum into the upper half
`[vol/2, vol)`; concretely on `dims = [4,4,4,4]`, `(0,0,0,0)` maps to 0,
`(1,0,0,0)` maps into `[128,256)`, site 0 decodes to `(0,0,0,0)` and site
128 decodes to a coordinate of odd sum whose component 0 is 0 or 1. -/
theorem cb2_color_blocks :
    (∀ (nrow c : List Nat), 0 < nrow.length → (∀ d ∈ nrow, 2 ∣ d) →
        ValidCoord c nrow →
        (c.sum % 2 = 0 → cb2_linearSiteIndex nrow c < nrow.prod / 2)
      ∧ (c.sum % 2 = 1 → nrow.prod / 2 ≤ cb2_linearSiteIndex nrow c
          ∧ cb2_linearSiteIndex nrow c < nrow.prod))
  ∧ cb2_linearSiteIndex [4, 4, 4, 4] [0, 0, 0, 0] = 0
  ∧ (128 ≤ cb2_linearSiteIndex [4, 4, 4, 4] [1, 0, 0, 0]
      ∧ cb2_linearSiteIndex [4, 4, 4, 4] [1, 0, 0, 0] < 256)
  ∧ cb2_siteCoords [4, 4, 4, 4] 0 0 = [0, 0, 0, 0]
  ∧ ((cb2_siteCoords [4, 4, 4, 4] 0 128).sum % 2 = 1
      ∧ (cb2_siteCoords [4, 4, 4, 4] 0 128).headI ≤ 1) := by
  refine ⟨?_, by decide, by decide, by decide, by decide⟩
  intro nrow c hlen heven hv
  cases nrow with
  | nil => simp at hlen
  | cons d0 ds =>
    obtain ⟨a, rfl⟩ : ∃ a, d0 = 2 * a := heven _ (by simp)
    rcases hv with _ | ⟨h1, h2⟩
    rename_i c0 cs
    have hvolcb : (2 * a :: ds).prod / 2 = a * ds.prod := by
      simp [List.prod_cons, Nat.mul_assoc, Nat.mul_div_cancel_left]
    have hprod : (2 * a :: ds).prod = 2 * (a * ds.prod) := by
      simp [List.prod_cons, Nat.mul_assoc]
    have hhalve : halveHead (2 * a :: ds) = a :: ds := by
      simp [halveHead, Nat.mul_div_cancel_left]
    have hhalvec : halveHead (c0 :: cs) = c0 / 2 :: cs := rfl
    have hc0 : c0 / 2 < a := by omega
    have hL : local_site (c0 / 2 :: cs) (a :: ds) < a * ds.prod := by
      have h := local_site_lt_prod (validCoord_cons hc0 h2)
      simpa [List.prod_cons] using h
    have hidx : cb2_linearSiteIndex (2 * a :: ds) (c0 :: cs)
        = local_site (c0 / 2 :: cs) (a :: ds)
          + (c0 + cs.sum) % 2 * (a * ds.prod) := by
      simp only [cb2_linearSiteIndex, hvolcb, hhalve, hhalvec, Nat.and_one_is_mod,
        List.sum_cons]
    rw [hidx, hvolcb, hprod, List.sum_cons]
    constructor
    · intro hpar
      rw [hpar]
      omega
    · intro hpar
      rw [hpar]
      omega

/-- C5 witness: the color-block bounds applied on `dims = [4,4,4,4]` to the
odd-parity coordinate `(1,0,0,0)`. -/
theorem cb2_color_blocks_witness :
    128 ≤ cb2_linearSiteIndex [4, 4, 4, 4] [1, 0, 0, 0]
      ∧ cb2_linearSiteIndex [4, 4, 4, 4] [1, 0, 0, 0]
        < ([4, 4, 4, 4] : List Nat).prod := by
  have hval : ValidCoord [1, 0, 0, 0] [4, 4, 4, 4] :=
    validCoord_cons (by norm_num) (validCoord_cons (by norm_num)
      (validCoord_cons (by norm_num) (validCoord_cons (by norm_num) validCoord_nil)))
  have h := (cb2_color_blocks.1 [4, 4, 4, 4] [1, 0, 0, 0] (by norm_num) (by decide)
    hval).2 (by decide)
  exact ⟨h.1, h.2⟩

/-- C9: `MapObjectMemory::insert` has update semantics and always succeeds:
it returns 0; when an entry with the same serialized key exists its value is
replaced and the size is unchanged, otherwise a new entry is added and the
size grows by one; afterwards `get` returns 0 with the inserted value. -/
theorem mapobj_insert_update_semantics {K KS V : Type} [DecidableEq KS]
    (ser : K → KS) (m : MapObjectMemory KS V) (key : K) (val v0 : V) :
    (MapObjectMemory.insert ser key val m).1 = 0
  ∧ (MapObjectMemory.exist ser key m = true →
      MapObjectMemory.size (MapObjectMemory.insert ser key val m).2
        = MapObjectMemory.size m)
  ∧ (MapObjectMemory.exist ser key m = false →
      MapObjectMemory.size (MapObjectMemory.insert ser key val m).2
        = MapObjectMemory.size m + 1)
  ∧ MapObjectMemory.get ser key v0 (MapObjectMemory.insert ser key val m).2
      = (0, val) := by
  rcases hl : m.src_map.lookup (ser key) with _ | w
  · refine ⟨by simp [MapObjectMemory.insert, hl], ?_, ?_, ?_⟩
    · intro hex
      rw [MapObjectMemory.exist, hl] at hex
      cases hex
    · intro _
      simp [MapObjectMemory.insert, hl, MapObjectMemory.size]
    · simp [MapObjectMemory.insert, hl, MapObjectMemory.get, List.lookup]
  · refine ⟨by simp [MapObjectMemory.insert, hl], ?_, ?_, ?_⟩
    · intro _
      simp [MapObjectMemory.insert, hl, MapObjectMemory.size, replaceFirst_length]
    · intro hex
      rw [MapObjectMemory.exist, hl] at hex
      cases hex
    · have hsome : (m.src_map.lookup (ser key)).isSome = true := by
        rw [hl]
        rfl
      simp [MapObjectMemory.insert, hl, MapObjectMemory.get,
        lookup_replaceFirst m.src_map (ser key) val hsome]

/-- C9 witness: insert on a one-entry map over `Nat` keys serialized by the
identity, in both the overwrite and the fresh-key cases. -/
theorem mapobj_insert_update_semantics_witness :
    (MapObjectMemory.insert id 1 5 (⟨[(1, 10)], ""⟩ : MapObjectMemory Nat Nat)).1 = 0
  ∧ MapObjectMemory.size
      (MapObjectMemory.insert id 1 5 (⟨[(1, 10)], ""⟩ : MapObjectMemory Nat Nat)).2
      = MapObjectMemory.size (⟨[(1, 10)], ""⟩ : MapObjectMemory Nat Nat)
  ∧ MapObjectMemory.get id 1 99
      (MapObjectMemory.insert id 1 5 (⟨[(1, 10)], ""⟩ : MapObjectMemory Nat Nat)).2
      = (0, 5)
  ∧ MapObjectMemory.size
      (MapObjectMemory.insert id 2 7 (⟨[(1, 10)], ""⟩ : MapObjectMemory Nat Nat)).2
      = MapObjectMemory.size (⟨[(1, 10)], ""⟩ : MapObjectMemory Nat Nat) + 1 := by
  have h1 := mapobj_insert_update_semantics (id : Nat → Nat)
    (⟨[(1, 10)], ""⟩ : MapObjectMemory Nat Nat) 1 5 99
  have h2 := mapobj_insert_update_semantics (id : Nat → Nat)
    (⟨[(1, 10)], ""⟩ : MapObjectMemory Nat Nat) 2 7 99
  exact ⟨h1.1, h1.2.1 (by decide), h1.2.2.2, h2.2.2.1 (by decide)⟩

/-- C10: `MapObjectMemory::get` returns 1 leaving the out-parameter
unchanged when the key is absent and returns 0 with the stored value when it
is present; `exist` answers exactly membership of an entry with the
serialized key; `erase` on an absent key leaves the map unchanged (and the
embedded `get`/`exist` are pure functions of the map). -/
theorem mapobj_get_erase_exist {K KS V : Type} [DecidableEq KS]
    (ser : K → KS) (m : MapObjectMemory KS V) (key : K) (v0 : V) :
    (MapObjectMemory.exist ser key m = false →
        MapObjectMemory.get ser key v0 m = (1, v0))
  ∧ (MapObjectMemory.exist ser key m = true →
      ∃ w, m.src_map.lookup (ser key) = some w
        ∧ MapObjectMemory.get ser key v0 m = (0, w))
  ∧ (MapObjectMemory.exist ser key m = true ↔ ∃ p ∈ m.src_map, p.1 = ser key)
  ∧ (MapObjectMemory.exist ser key m = false →
      MapObjectMemory.erase ser key m = m) := by
  rcases hl : m.src_map.lookup (ser key) with _ | w
  · refine ⟨fun _ => by simp [MapObjectMemory.get, hl], ?_, ?_, ?_⟩
    · intro hex
      rw [MapObjectMemory.exist, hl] at hex
      cases hex
    · rw [MapObjectMemory.exist, hl]
      rw [← lookup_isSome_iff m.src_map (ser key), hl]
      simp
    · intro _
      rw [MapObjectMemory.erase, hl]
  · refine ⟨?_, ?_, ?_, ?_⟩
    · intro hex
      rw [MapObjectMemory.exist, hl] at hex
      cases hex
    · intro _
      exact ⟨w, rfl, by simp [MapObjectMemory.get, hl]⟩
    · rw [MapObjectMemory.exist, hl]
      rw [← lookup_isSome_iff m.src_map (ser key), hl]
      simp
    · intro hex
      rw [MapObjectMemory.exist, hl] at hex
      cases hex

/-- C10 witness: get/exist/erase exercised on a one-entry map over `Nat`
keys serialized by the identity, for a present key and an absent key. -/
theorem mapobj_get_erase_exist_witness :
    MapObjectMemory.get id 2 99 (⟨[(1, 10)], ""⟩ : MapObjectMemory Nat Nat) = (1, 99)
  ∧ (∃ w, (⟨[(1, 10)], ""⟩ : MapObjectMemory Nat Nat).src_map.lookup (id 1) = some w
      ∧ MapObjectMemory.get id 1 99 (⟨[(1, 10)], ""⟩ : MapObjectMemory Nat Nat)
        = (0, w))
  ∧ MapObjectMemory.erase id 2 (⟨[(1, 10)], ""⟩ : MapObjectMemory Nat Nat)
      = (⟨[(1, 10)], ""⟩ : MapObjectMemory Nat Nat) := by
  have h1 := mapobj_get_erase_exist (id : Nat → Nat)
    (⟨[(1, 10)], ""⟩ : MapObjectMemory Nat Nat) 2 99
  have h2 := mapobj_get_erase_exist (id : Nat → Nat)
    (⟨[(1, 10)], ""⟩ : MapObjectMemory Nat Nat) 1 99
  exact ⟨h1.1 (by decide), h2.2.1 (by decide), h1.2.2.2 (by decide)⟩

end QDPXX
